import Mathlib

/-!
Verification of the eth-shamir secret-sharing engine.

The TypeScript sources `src/utils/shamir.ts` and `src/utils/encryption.ts`
are embedded shallowly below.  The finite-field Shamir engine itself lives
in the external `secrets.js-grempe` package and the AES layer in
`crypto-js`; both are modelled from the specification (GF(2^8) arithmetic
over the primitive polynomial x^8+x^4+x^3+x^2+1, per-byte random
polynomials, Lagrange interpolation at 0, and a marker-tagged symmetric
cipher keyed by the password with a fresh salt per call).
-/

set_option maxRecDepth 8192

namespace EthShamir

/-! ### Carry-less GF(2)[x] arithmetic on `Nat` bit vectors -/

/-- Carry-less multiplication of `b` by the low `i` bits of `a`:
the GF(2)-polynomial product restricted to `a`'s bits below `i`. -/
def cmulBits : Nat → Nat → Nat → Nat
  | 0, _, _ => 0
  | i + 1, a, b => cmulBits i a b ^^^ (if a.testBit i then b <<< i else 0)

/-- Carry-less product of two bytes viewed as GF(2) polynomials of degree < 8. -/
def cmulN (a b : Nat) : Nat := cmulBits 8 a b

/-- One reduction step: clear bit `8+j` by subtracting (xor-ing) the shifted
modulus x^8+x^4+x^3+x^2+1 = 0x11d. -/
def redStep (j x : Nat) : Nat := if x.testBit (8 + j) then x ^^^ (0x11d <<< j) else x

/-- Reduce bits `8+j-1` down to `8` by repeated `redStep`. -/
def redFrom : Nat → Nat → Nat
  | 0, x => x
  | j + 1, x => redFrom j (redStep j x)

/-- Multiplication in GF(2^8) = GF(2)[x]/(x^8+x^4+x^3+x^2+1), on `Nat`. -/
def gfMulN (a b : Nat) : Nat := redFrom 7 (cmulN a b)

theorem xor_xor_swap (a b c d : Nat) :
    (a ^^^ b) ^^^ (c ^^^ d) = (a ^^^ c) ^^^ (b ^^^ d) := by
  rw [Nat.xor_assoc, Nat.xor_assoc]
  congr 1
  rw [← Nat.xor_assoc, ← Nat.xor_assoc, Nat.xor_comm b c]

theorem shiftLeft_xor_distrib (b c i : Nat) :
    (b ^^^ c) <<< i = b <<< i ^^^ c <<< i := by
  apply Nat.eq_of_testBit_eq
  intro j
  simp only [Nat.testBit_shiftLeft, Nat.testBit_xor]
  by_cases h : i ≤ j <;> simp [h]

theorem cmulBits_zero_left (i b : Nat) : cmulBits i 0 b = 0 := by
  induction i with
  | zero => rfl
  | succ i ih => simp [cmulBits, ih, Nat.zero_testBit]

theorem cmulBits_zero_right (i a : Nat) : cmulBits i a 0 = 0 := by
  induction i with
  | zero => rfl
  | succ i ih => simp [cmulBits, ih, Nat.zero_shiftLeft]

theorem cmulBits_xor_right (i a b c : Nat) :
    cmulBits i a (b ^^^ c) = cmulBits i a b ^^^ cmulBits i a c := by
  induction i with
  | zero => simp [cmulBits]
  | succ i ih =>
      simp only [cmulBits, ih, shiftLeft_xor_distrib]
      rw [xor_xor_swap]
      congr 1
      by_cases h : a.testBit i <;> simp [h]

theorem cmulBits_xor_left (i a b c : Nat) :
    cmulBits i (a ^^^ b) c = cmulBits i a c ^^^ cmulBits i b c := by
  induction i with
  | zero => simp [cmulBits]
  | succ i ih =>
      simp only [cmulBits, ih, Nat.testBit_xor]
      rw [xor_xor_swap]
      congr 1
      by_cases ha : a.testBit i <;> by_cases hb : b.testBit i <;>
        simp [ha, hb, Nat.xor_self]

theorem redStep_eq (j x : Nat) :
    redStep j x = x ^^^ (if x.testBit (8 + j) then 0x11d <<< j else 0) := by
  unfold redStep
  by_cases h : x.testBit (8 + j) <;> simp [h]

theorem redStep_xor (j x y : Nat) :
    redStep j (x ^^^ y) = redStep j x ^^^ redStep j y := by
  rw [redStep_eq, redStep_eq, redStep_eq, Nat.testBit_xor, xor_xor_swap]
  congr 1
  by_cases hx : x.testBit (8 + j) <;> by_cases hy : y.testBit (8 + j) <;>
    simp [hx, hy, Nat.xor_self]

theorem redFrom_xor (j x y : Nat) :
    redFrom j (x ^^^ y) = redFrom j x ^^^ redFrom j y := by
  induction j generalizing x y with
  | zero => rfl
  | succ j ih => simp [redFrom, redStep_xor, ih]

theorem redStep_zero (j : Nat) : redStep j 0 = 0 := by
  simp [redStep, Nat.zero_testBit]

theorem redFrom_zero (j : Nat) : redFrom j 0 = 0 := by
  induction j with
  | zero => rfl
  | succ j ih => simp [redFrom, redStep_zero, ih]

theorem gfMulN_zero_left (b : Nat) : gfMulN 0 b = 0 := by
  simp [gfMulN, cmulN, cmulBits_zero_left, redFrom_zero]

theorem gfMulN_zero_right (a : Nat) : gfMulN a 0 = 0 := by
  simp [gfMulN, cmulN, cmulBits_zero_right, redFrom_zero]

theorem gfMulN_xor_left (a b c : Nat) :
    gfMulN (a ^^^ b) c = gfMulN a c ^^^ gfMulN b c := by
  simp [gfMulN, cmulN, cmulBits_xor_left, redFrom_xor]

theorem gfMulN_xor_right (a b c : Nat) :
    gfMulN a (b ^^^ c) = gfMulN a b ^^^ gfMulN a c := by
  simp [gfMulN, cmulN, cmulBits_xor_right, redFrom_xor]

/-! ### Size bounds -/

theorem cmulBits_lt {n : Nat} (i a : Nat) {b : Nat} (hb : b < 2 ^ n) :
    cmulBits i a b < 2 ^ (n + i - 1) := by
  induction i with
  | zero => exact pow_pos (by omega) _
  | succ i ih =>
      have h1 : cmulBits i a b < 2 ^ (n + i) :=
        lt_of_lt_of_le ih (Nat.pow_le_pow_right (by omega) (by omega))
      have h2 : b <<< i < 2 ^ (n + i) := by
        rw [Nat.shiftLeft_eq, Nat.pow_add]
        exact mul_lt_mul_of_pos_right hb (pow_pos (by omega) _)
      have h3 : (if a.testBit i then b <<< i else 0) < 2 ^ (n + i) := by
        split
        · exact h2
        · exact pow_pos (by omega) _
      have := Nat.xor_lt_two_pow h1 h3
      simpa [Nat.succ_sub_one] using this

theorem high_testBit_false {x n i : Nat} (hx : x < 2 ^ n) (hi : n ≤ i) :
    x.testBit i = false :=
  Nat.testBit_lt_two_pow (lt_of_lt_of_le hx (Nat.pow_le_pow_right (by omega) hi))

theorem lt_two_pow_of_high_false {x n : Nat}
    (h : ∀ i, n ≤ i → x.testBit i = false) : x < 2 ^ n := by
  by_contra hcon
  obtain ⟨i, hi, hbit⟩ := Nat.ge_two_pow_implies_high_bit_true (Nat.le_of_not_lt hcon)
  rw [h i hi] at hbit
  exact Bool.false_ne_true hbit

theorem redStep_lt {j x : Nat} (h : x < 2 ^ (9 + j)) : redStep j x < 2 ^ (8 + j) := by
  unfold redStep
  by_cases hb : x.testBit (8 + j)
  · simp only [hb, if_true]
    apply lt_two_pow_of_high_false
    intro i hi
    rw [Nat.testBit_xor]
    rcases Nat.eq_or_lt_of_le hi with heq | hlt
    · have hm : (0x11d <<< j).testBit (8 + j) = true := by
        rw [Nat.testBit_shiftLeft]
        simp only [Nat.le_add_left, decide_True, Bool.true_and]
        have : 8 + j - j = 8 := by omega
        rw [this]
        decide
      rw [← heq, hb, hm]
      rfl
    · have hx : x.testBit i = false := high_testBit_false h (by omega)
      have hm : (0x11d <<< j).testBit i = false := by
        rw [Nat.testBit_shiftLeft]
        have hlt9 : (0x11d : Nat) < 2 ^ 9 := by decide
        rcases le_or_lt j i with hji | hji
        · have hf : (0x11d : Nat).testBit (i - j) = false :=
            high_testBit_false hlt9 (by omega)
          simp [hf]
        · simp [Nat.not_le.mpr hji]
      rw [hx, hm]
      rfl
  · simp only [hb, if_false]
    apply lt_two_pow_of_high_false
    intro i hi
    rcases Nat.eq_or_lt_of_le hi with heq | hlt
    · rw [← heq]
      simpa using hb
    · exact high_testBit_false h (by omega)

theorem redFrom_lt : ∀ j x, x < 2 ^ (8 + j) → redFrom j x < 2 ^ 8 := by
  intro j
  induction j with
  | zero => intro x hx; exact hx
  | succ j ih =>
      intro x hx
      apply ih
      apply redStep_lt
      have h9 : 9 + j = 8 + (j + 1) := by omega
      rw [h9]
      exact hx

theorem gfMulN_lt (a : Nat) {b : Nat} (hb : b < 256) : gfMulN a b < 256 := by
  have hb8 : b < 2 ^ 8 := hb
  have h1 : cmulN a b < 2 ^ 15 := by
    have := cmulBits_lt (n := 8) 8 a hb8
    simpa using this
  exact redFrom_lt 7 _ h1

/-! ### Lifting multiplication facts from the basis by linearity -/

theorem pow_xor_eq_add : ∀ n < 8, ∀ r < 2 ^ n, 2 ^ n ^^^ r = 2 ^ n + r := by decide

theorem byte_decompose (P : Nat → Prop) (h0 : P 0) (hpow : ∀ i < 8, P (2 ^ i))
    (hxor : ∀ a b, a < 256 → b < 256 → P a → P b → P (a ^^^ b)) :
    ∀ a < 256, P a := by
  suffices h : ∀ n, n ≤ 8 → ∀ a, a < 2 ^ n → P a by
    intro a ha
    exact h 8 (le_refl _) a ha
  intro n
  induction n with
  | zero =>
      intro _ a ha
      interval_cases a
      exact h0
  | succ n ih =>
      intro hn a ha
      rcases Nat.lt_or_ge a (2 ^ n) with hlow | hhigh
      · exact ih (by omega) a hlow
      · have hr : a - 2 ^ n < 2 ^ n := by
          have : 2 ^ (n + 1) = 2 ^ n + 2 ^ n := by rw [Nat.pow_succ]; omega
          omega
        have hxa : 2 ^ n ^^^ (a - 2 ^ n) = a := by
          rw [pow_xor_eq_add n (by omega) _ hr]
          omega
        have hlt : (2 : Nat) ^ n < 256 := by
          calc (2 : Nat) ^ n < 2 ^ 8 := Nat.pow_lt_pow_right (by omega) (by omega)
          _ = 256 := by norm_num
        rw [← hxa]
        exact hxor _ _ hlt (by omega) (hpow n (by omega)) (ih (by omega) _ hr)

theorem gfMulN_comm_base :
    ∀ i < 8, ∀ j < 8, gfMulN (2 ^ i) (2 ^ j) = gfMulN (2 ^ j) (2 ^ i) := by decide

theorem gfMulN_comm : ∀ a < 256, ∀ b < 256, gfMulN a b = gfMulN b a := by
  apply byte_decompose (P := fun a => ∀ b < 256, gfMulN a b = gfMulN b a)
  · intro b _
    rw [gfMulN_zero_left, gfMulN_zero_right]
  · intro i hi
    apply byte_decompose (P := fun b => gfMulN (2 ^ i) b = gfMulN b (2 ^ i))
    · rw [gfMulN_zero_left, gfMulN_zero_right]
    · intro j hj
      exact gfMulN_comm_base i hi j hj
    · intro a b _ _ ha hb
      rw [gfMulN_xor_right, ha, hb, gfMulN_xor_left]
  · intro a b _ _ ha hb c hc
    rw [gfMulN_xor_left, ha c hc, hb c hc, gfMulN_xor_right]

theorem gfMulN_assoc_base :
    ∀ i < 8, ∀ j < 8, ∀ k < 8,
      gfMulN (gfMulN (2 ^ i) (2 ^ j)) (2 ^ k) = gfMulN (2 ^ i) (gfMulN (2 ^ j) (2 ^ k)) := by
  decide

theorem gfMulN_assoc : ∀ a < 256, ∀ b < 256, ∀ c < 256,
    gfMulN (gfMulN a b) c = gfMulN a (gfMulN b c) := by
  apply byte_decompose
    (P := fun a => ∀ b < 256, ∀ c < 256, gfMulN (gfMulN a b) c = gfMulN a (gfMulN b c))
  · intro b _ c _
    simp [gfMulN_zero_left]
  · intro i hi
    apply byte_decompose
      (P := fun b => ∀ c < 256,
        gfMulN (gfMulN (2 ^ i) b) c = gfMulN (2 ^ i) (gfMulN b c))
    · intro c _
      simp [gfMulN_zero_left, gfMulN_zero_right]
    · intro j hj
      apply byte_decompose
        (P := fun c =>
          gfMulN (gfMulN (2 ^ i) (2 ^ j)) c = gfMulN (2 ^ i) (gfMulN (2 ^ j) c))
      · simp [gfMulN_zero_left, gfMulN_zero_right]
      · intro k hk
        exact gfMulN_assoc_base i hi j hj k hk
      · intro c1 c2 _ _ h1 h2
        rw [gfMulN_xor_right, gfMulN_xor_right, h1, h2, gfMulN_xor_right]
    · intro b1 b2 _ _ h1 h2 c hc
      rw [gfMulN_xor_right, gfMulN_xor_left, gfMulN_xor_left, h1 c hc, h2 c hc,
        ← gfMulN_xor_right, ← gfMulN_xor_left]
  · intro a1 a2 _ _ h1 h2 b hb c hc
    rw [gfMulN_xor_left, gfMulN_xor_left, h1 b hb c hc, h2 b hb c hc, ← gfMulN_xor_left]

theorem gfMulN_one_left : ∀ a < 256, gfMulN 1 a = a := by decide

theorem gfMulN_one_right : ∀ a < 256, gfMulN a 1 = a := by decide

/-- Multiplicative-inverse lookup table for GF(2^8) over 0x11d
(index 0 maps to 0, matching the convention that inv 0 = 0). -/
def gfInvTable : List Nat := [
  0, 1, 142, 244, 71, 167, 122, 186, 173, 157, 221, 152, 61, 170, 93, 150,
  216, 114, 192, 88, 224, 62, 76, 102, 144, 222, 85, 128, 160, 131, 75, 42,
  108, 237, 57, 81, 96, 86, 44, 138, 112, 208, 31, 74, 38, 139, 51, 110, 72,
  137, 111, 46, 164, 195, 64, 94, 80, 34, 207, 169, 171, 12, 21, 225, 54, 95,
  248, 213, 146, 78, 166, 4, 48, 136, 43, 30, 22, 103, 69, 147, 56, 35, 104,
  140, 129, 26, 37, 97, 19, 193, 203, 99, 151, 14, 55, 65, 36, 87, 202, 91,
  185, 196, 23, 77, 82, 141, 239, 179, 32, 236, 47, 50, 40, 209, 17, 217, 233,
  251, 218, 121, 219, 119, 6, 187, 132, 205, 254, 252, 27, 84, 161, 29, 124,
  204, 228, 176, 73, 49, 39, 45, 83, 105, 2, 245, 24, 223, 68, 79, 155, 188,
  15, 92, 11, 220, 189, 148, 172, 9, 199, 162, 28, 130, 159, 198, 52, 194, 70,
  5, 206, 59, 13, 60, 156, 8, 190, 183, 135, 229, 238, 107, 235, 242, 191,
  175, 197, 100, 7, 123, 149, 154, 174, 182, 18, 89, 165, 53, 101, 184, 163,
  158, 210, 247, 98, 90, 133, 125, 168, 58, 41, 113, 200, 246, 249, 67, 215,
  214, 16, 115, 118, 120, 153, 10, 25, 145, 20, 63, 230, 240, 134, 177, 226,
  241, 250, 116, 243, 180, 109, 33, 178, 106, 227, 231, 181, 234, 3, 143, 211,
  201, 66, 212, 232, 117, 127, 255, 126, 253]

def gfInvN (a : Nat) : Nat := gfInvTable.getD a 0

theorem gfInvN_lt_of_lt : ∀ a < 256, gfInvN a < 256 := by decide

theorem gfInvN_lt (a : Nat) : gfInvN a < 256 := by
  rcases Nat.lt_or_ge a 256 with h | h
  · exact gfInvN_lt_of_lt a h
  · have hlen : gfInvTable.length = 256 := by decide
    rw [gfInvN, List.getD_eq_default]
    · omega
    · omega

theorem gfMulN_inv_cancel : ∀ a < 256, a ≠ 0 → gfMulN a (gfInvN a) = 1 := by decide

/-! ### The field GF(2^8) as a type -/

/-- An element of GF(2^8): a byte carrying the field structure of the
modelled secret-sharing engine. -/
structure GF where
  val : Nat
  isLt : val < 256

theorem GF.ext_val : ∀ {a b : GF}, a.val = b.val → a = b
  | ⟨_, _⟩, ⟨_, _⟩, rfl => rfl

instance : DecidableEq GF := fun a b =>
  if h : a.val = b.val then .isTrue (GF.ext_val h)
  else .isFalse (fun hh => h (congrArg GF.val hh))

instance : Inhabited GF := ⟨⟨0, by omega⟩⟩

instance : Zero GF := ⟨⟨0, by omega⟩⟩

instance : One GF := ⟨⟨1, by omega⟩⟩

instance : Add GF :=
  ⟨fun a b => ⟨a.val ^^^ b.val, Nat.xor_lt_two_pow (n := 8) a.isLt b.isLt⟩⟩

instance : Mul GF := ⟨fun a b => ⟨gfMulN a.val b.val, gfMulN_lt _ b.isLt⟩⟩

instance : Neg GF := ⟨fun a => a⟩

instance : Inv GF := ⟨fun a => ⟨gfInvN a.val, gfInvN_lt _⟩⟩

theorem GF.val_add (a b : GF) : (a + b).val = a.val ^^^ b.val := rfl

theorem GF.val_mul (a b : GF) : (a * b).val = gfMulN a.val b.val := rfl

theorem GF.val_zero : (0 : GF).val = 0 := rfl

theorem GF.val_one : (1 : GF).val = 1 := rfl

theorem GF.val_neg (a : GF) : (-a).val = a.val := rfl

theorem GF.val_inv (a : GF) : (a⁻¹).val = gfInvN a.val := rfl

instance : CommRing GF where
  nsmul := nsmulRec
  zsmul := zsmulRec
  add_assoc a b c := GF.ext_val (by simp [GF.val_add, Nat.xor_assoc])
  zero_add a := GF.ext_val (by simp [GF.val_add, GF.val_zero])
  add_zero a := GF.ext_val (by simp [GF.val_add, GF.val_zero])
  add_comm a b := GF.ext_val (by simp [GF.val_add, Nat.xor_comm])
  neg_add_cancel a := GF.ext_val (by simp [GF.val_add, GF.val_neg, GF.val_zero])
  left_distrib a b c := GF.ext_val (by simp [GF.val_mul, GF.val_add, gfMulN_xor_right])
  right_distrib a b c := GF.ext_val (by simp [GF.val_mul, GF.val_add, gfMulN_xor_left])
  zero_mul a := GF.ext_val (by simp [GF.val_mul, GF.val_zero, gfMulN_zero_left])
  mul_zero a := GF.ext_val (by simp [GF.val_mul, GF.val_zero, gfMulN_zero_right])
  mul_assoc a b c :=
    GF.ext_val (gfMulN_assoc _ a.isLt _ b.isLt _ c.isLt)
  one_mul a := GF.ext_val (gfMulN_one_left _ a.isLt)
  mul_one a := GF.ext_val (gfMulN_one_right _ a.isLt)
  mul_comm a b := GF.ext_val (gfMulN_comm _ a.isLt _ b.isLt)

instance : Field GF where
  nnqsmul := _
  qsmul := _
  exists_pair_ne := ⟨0, 1, fun h => by simpa using congrArg GF.val h⟩
  mul_inv_cancel a ha :=
    GF.ext_val (gfMulN_inv_cancel _ a.isLt (fun h0 => ha (GF.ext_val h0)))
  inv_zero := rfl

theorem GF.neg_eq (a : GF) : -a = a := rfl

theorem GF.sub_eq_add (a b : GF) : a - b = a + b := by
  rw [sub_eq_add_neg]
  congr 1

/-! ### Polynomial evaluation and Lagrange combination
(modelled from the spec, sections 4.2 and 4.3) -/

/-- Modelled from the spec: Horner evaluation of the polynomial whose
coefficient list is `cs` (constant term first), `f(x) = s + a1 x + ...`. -/
def evalPoly (cs : List GF) (x : GF) : GF := cs.foldr (fun c acc => c + x * acc) 0

/-- Modelled from the spec: the secret byte recovered by Lagrange
interpolation at `x = 0` from the sample points `pts` (share id, share byte):
`sum_i y_i * prod_m_ne_i x_m / (x_i - x_m)`, all in GF(2^8) where
subtraction is xor. -/
def combineByte (pts : List (GF × GF)) : GF :=
  ∑ i : Fin pts.length,
    (pts.get i).2 *
      ∏ j ∈ Finset.univ.erase i, ((pts.get j).1 * ((pts.get i).1 + (pts.get j).1)⁻¹)

/-- The polynomial with coefficient list `cs` (constant term first). -/
noncomputable def listPoly (cs : List GF) : Polynomial GF :=
  cs.foldr (fun c acc => Polynomial.C c + Polynomial.X * acc) 0

theorem evalPoly_cons (c : GF) (cs : List GF) (x : GF) :
    evalPoly (c :: cs) x = c + x * evalPoly cs x := rfl

theorem listPoly_cons (c : GF) (cs : List GF) :
    listPoly (c :: cs) = Polynomial.C c + Polynomial.X * listPoly cs := rfl

theorem evalPoly_eq (cs : List GF) (x : GF) : evalPoly cs x = (listPoly cs).eval x := by
  induction cs with
  | nil => simp [evalPoly, listPoly]
  | cons c cs ih =>
      rw [evalPoly_cons, listPoly_cons, Polynomial.eval_add, Polynomial.eval_C,
        Polynomial.eval_mul, Polynomial.eval_X, ih]

theorem listPoly_degree (cs : List GF) :
    (listPoly cs).degree < (cs.length : WithBot ℕ) := by
  induction cs with
  | nil => exact WithBot.bot_lt_coe _
  | cons c cs ih =>
      have hX : (Polynomial.X * listPoly cs).degree < ((cs.length + 1 : ℕ) : WithBot ℕ) := by
        rw [Polynomial.degree_mul, Polynomial.degree_X]
        rcases eq_or_ne (listPoly cs) 0 with h0 | h0
        · rw [h0, Polynomial.degree_zero]
          exact lt_of_le_of_lt (by simp) (WithBot.bot_lt_coe _)
        · have hc : ((cs.length + 1 : ℕ) : WithBot ℕ) = 1 + (cs.length : WithBot ℕ) := by
            push_cast
            ring
          rw [hc]
          exact WithBot.add_lt_add_left (by simp) ih
      have hC : (Polynomial.C c).degree < ((cs.length + 1 : ℕ) : WithBot ℕ) :=
        lt_of_le_of_lt Polynomial.degree_C_le
          (by exact_mod_cast WithBot.coe_lt_coe.mpr (by omega))
      have hfin := lt_of_le_of_lt
        (Polynomial.degree_add_le (Polynomial.C c) (Polynomial.X * listPoly cs))
        (max_lt hC hX)
      simpa [listPoly] using hfin

theorem listPoly_eval_zero (cs : List GF) : (listPoly cs).eval 0 = cs.headI := by
  cases cs with
  | nil =>
      show (0 : Polynomial GF).eval 0 = (0 : GF)
      simp
  | cons c cs =>
      show (Polynomial.C c + Polynomial.X * listPoly cs).eval 0 = c
      simp

theorem lagrange_sum_recovers {k : Nat} (v : Fin k → GF) (hv : Function.Injective v)
    (f : Polynomial GF) (hdeg : f.degree < (k : WithBot ℕ)) :
    ∑ i : Fin k,
        f.eval (v i) * ∏ j ∈ Finset.univ.erase i, (v j * (v i + v j)⁻¹) =
      f.eval 0 := by
  have hs : Set.InjOn v (Finset.univ : Finset (Fin k)) := fun a _ b _ h => hv h
  have hcard : ((Finset.univ : Finset (Fin k)).card : WithBot ℕ) = (k : WithBot ℕ) := by
    simp
  have hf := Lagrange.eq_interpolate hs (by rw [hcard]; exact hdeg)
  conv_rhs => rw [hf]
  rw [Lagrange.interpolate_apply, Polynomial.eval_finset_sum]
  apply Finset.sum_congr rfl
  intro i _
  rw [Polynomial.eval_mul, Polynomial.eval_C, Lagrange.basis, Polynomial.eval_prod]
  congr 1
  apply Finset.prod_congr rfl
  intro j _
  rw [Lagrange.basisDivisor, Polynomial.eval_mul, Polynomial.eval_C,
    Polynomial.eval_sub, Polynomial.eval_X, Polynomial.eval_C]
  rw [zero_sub, GF.neg_eq, GF.sub_eq_add]
  ring

theorem combineByte_recovers (cs : List GF) (xs : List GF)
    (hnd : xs.Nodup) (hlen : cs.length ≤ xs.length) :
    combineByte (xs.map fun x => (x, evalPoly cs x)) = cs.headI := by
  rw [combineByte]
  have hk : (xs.map fun x => (x, evalPoly cs x)).length = xs.length :=
    List.length_map _ _
  have hget : ∀ i : Fin (xs.map fun x => (x, evalPoly cs x)).length,
      (xs.map fun x => (x, evalPoly cs x)).get i
        = (xs.get (Fin.cast hk i), evalPoly cs (xs.get (Fin.cast hk i))) := by
    intro i
    simp [List.get_eq_getElem]
  have hv : Function.Injective
      fun i : Fin (xs.map fun x => (x, evalPoly cs x)).length =>
        xs.get (Fin.cast hk i) := by
    intro a b hab
    have h2 := hnd.get_inj_iff.mp hab
    exact Fin.ext (by simpa using congrArg Fin.val h2)
  have hstep :
      (∑ i : Fin (xs.map fun x => (x, evalPoly cs x)).length,
          ((xs.map fun x => (x, evalPoly cs x)).get i).2 *
            ∏ j ∈ Finset.univ.erase i,
              (((xs.map fun x => (x, evalPoly cs x)).get j).1 *
                (((xs.map fun x => (x, evalPoly cs x)).get i).1 +
                  ((xs.map fun x => (x, evalPoly cs x)).get j).1)⁻¹)) =
        ∑ i : Fin (xs.map fun x => (x, evalPoly cs x)).length,
          (listPoly cs).eval (xs.get (Fin.cast hk i)) *
            ∏ j ∈ Finset.univ.erase i,
              (xs.get (Fin.cast hk j) *
                (xs.get (Fin.cast hk i) + xs.get (Fin.cast hk j))⁻¹) := by
    apply Finset.sum_congr rfl
    intro i _
    simp only [hget, ← evalPoly_eq]
  rw [hstep,
    lagrange_sum_recovers (fun i => xs.get (Fin.cast hk i)) hv (listPoly cs)
      (lt_of_lt_of_le (listPoly_degree cs)
        (by exact_mod_cast Nat.cast_le.mpr (by omega))),
    listPoly_eval_zero]

/-! ### Characters, hex digits, and byte/hex codecs -/

/-- Matches the character class `[0-9a-fA-F]` of the source regexes
(`'0'`..`'9'` is 48..57, `'a'`..`'f'` is 97..102, `'A'`..`'F'` is 65..70). -/
def isHexDigitChar (c : Char) : Bool :=
  decide (48 ≤ c.toNat ∧ c.toNat ≤ 57) || decide (97 ≤ c.toNat ∧ c.toNat ≤ 102) ||
    decide (65 ≤ c.toNat ∧ c.toNat ≤ 70)

/-- Numeric value of a hex digit (0 for non-digits). -/
def hexDigitVal (c : Char) : Nat :=
  if 48 ≤ c.toNat ∧ c.toNat ≤ 57 then c.toNat - 48
  else if 97 ≤ c.toNat ∧ c.toNat ≤ 102 then c.toNat - 97 + 10
  else if 65 ≤ c.toNat ∧ c.toNat ≤ 70 then c.toNat - 65 + 10
  else 0

/-- Lowercase hex digit for a value below 16 (Node emits lowercase hex). -/
def toHexDigit (n : Nat) : Char :=
  if n < 10 then Char.ofNat (48 + n) else Char.ofNat (97 + (n - 10))

/-- Hex rendering of a byte list, two lowercase digits per byte
(Node `Buffer.prototype.toString("hex")`). -/
def bytesToHexChars : List Nat → List Char
  | [] => []
  | b :: bs => toHexDigit (b / 16 % 16) :: toHexDigit (b % 16) :: bytesToHexChars bs

/-- Node `Buffer.from(str, "hex")`: decode hex pairs, stopping at the first
invalid pair and dropping a lone trailing digit. -/
def hexPairsToBytes : List Char → List Nat
  | c1 :: c2 :: rest =>
      if isHexDigitChar c1 && isHexDigitChar c2 then
        (hexDigitVal c1 * 16 + hexDigitVal c2) :: hexPairsToBytes rest
      else []
  | _ => []

/-! ### UTF-8 (Node `Buffer.from(str, "utf8")` and `buf.toString("utf8")`) -/

/-- UTF-8 encoding of one code point. -/
def utf8EncodeChar (c : Char) : List Nat :=
  if c.toNat < 0x80 then [c.toNat]
  else if c.toNat < 0x800 then [0xC0 + c.toNat / 64, 0x80 + c.toNat % 64]
  else if c.toNat < 0x10000 then
    [0xE0 + c.toNat / 4096, 0x80 + c.toNat / 64 % 64, 0x80 + c.toNat % 64]
  else
    [0xF0 + c.toNat / 262144, 0x80 + c.toNat / 4096 % 64, 0x80 + c.toNat / 64 % 64,
      0x80 + c.toNat % 64]

/-- UTF-8 encoding of a character list. -/
def utf8Encode : List Char → List Nat
  | [] => []
  | c :: cs => utf8EncodeChar c ++ utf8Encode cs

/-- One step of the WHATWG streaming UTF-8 decoder on a lead byte:
emitted characters plus the successor state (needed, pending, lo, hi). -/
def utf8StartByte (b : Nat) : List Char × (Nat × Nat × Nat × Nat) :=
  if b ≤ 0x7F then ([Char.ofNat b], (0, 0, 0x80, 0xBF))
  else if 0xC2 ≤ b ∧ b ≤ 0xDF then ([], (1, b - 0xC0, 0x80, 0xBF))
  else if 0xE0 ≤ b ∧ b ≤ 0xEF then
    ([], (2, b - 0xE0, if b = 0xE0 then 0xA0 else 0x80, if b = 0xED then 0x9F else 0xBF))
  else if 0xF0 ≤ b ∧ b ≤ 0xF4 then
    ([], (3, b - 0xF0, if b = 0xF0 then 0x90 else 0x80, if b = 0xF4 then 0x8F else 0xBF))
  else ([Char.ofNat 0xFFFD], (0, 0, 0x80, 0xBF))

/-- The WHATWG UTF-8 decoder with replacement characters, as V8/Node's
`toString("utf8")` implements it.  State: continuation bytes still needed,
the pending code-point prefix, and the admissible range of the next byte. -/
def utf8Go : Nat → Nat → Nat → Nat → List Nat → List Char
  | needed, _, _, _, [] => if needed = 0 then [] else [Char.ofNat 0xFFFD]
  | needed, cp, lo, hi, b :: bs =>
      if needed = 0 then
        let s := utf8StartByte b
        s.1 ++ utf8Go s.2.1 s.2.2.1 s.2.2.2.1 s.2.2.2.2 bs
      else if lo ≤ b ∧ b ≤ hi then
        if needed = 1 then Char.ofNat (cp * 64 + (b - 0x80)) :: utf8Go 0 0 0x80 0xBF bs
        else utf8Go (needed - 1) (cp * 64 + (b - 0x80)) 0x80 0xBF bs
      else
        let s := utf8StartByte b
        Char.ofNat 0xFFFD :: (s.1 ++ utf8Go s.2.1 s.2.2.1 s.2.2.2.1 s.2.2.2.2 bs)

/-- Node `buf.toString("utf8")`. -/
def utf8Decode (bs : List Nat) : List Char := utf8Go 0 0 0x80 0xBF bs

/-! ### JS string helpers -/

/-- JS `s.startsWith(pre)` (the prefixes used are ASCII, so UTF-16 and
code-point indexing agree). -/
def jsStartsWith (s pre : String) : Bool := pre.data.isPrefixOf s.data

/-- JS whitespace class `\s`. -/
def jsIsSpaceChar (c : Char) : Bool :=
  c == ' ' || c == '\t' || c == '\n' || c == '\r' ||
  c.toNat == 0xb || c.toNat == 0xc || c.toNat == 0xa0 || c.toNat == 0x1680 ||
  (decide (0x2000 ≤ c.toNat) && decide (c.toNat ≤ 0x200a)) ||
  c.toNat == 0x2028 || c.toNat == 0x2029 || c.toNat == 0x202f ||
  c.toNat == 0x205f || c.toNat == 0x3000 || c.toNat == 0xfeff

/-- JS `/^[0-9a-fA-F]+$/.test s`. -/
def testAllHex (s : String) : Bool := !s.data.isEmpty && s.data.all isHexDigitChar

/-- JS `/^[a-z\s]+$/.test s` (`'a'`..`'z'` is 97..122). -/
def testLowerOrSpace (s : String) : Bool :=
  !s.data.isEmpty &&
    s.data.all fun c => decide (97 ≤ c.toNat ∧ c.toNat ≤ 122) || jsIsSpaceChar c

/-- JS `/[\x20-\x7E]/.test s`. -/
def testHasPrintable (s : String) : Bool :=
  s.data.any fun c => decide (0x20 ≤ c.toNat ∧ c.toNat ≤ 0x7e)

/-- JS `s.split(sep)` for a one-character separator. -/
def splitOnChar (sep : Char) : List Char → List (List Char)
  | [] => [[]]
  | c :: rest =>
      let r := splitOnChar sep rest
      if c = sep then [] :: r
      else
        match r with
        | [] => [[c]]
        | h :: t => (c :: h) :: t

/-! ### src/utils/shamir.ts: the secret encoder and decoder -/

/-- From src/utils/shamir.ts, `stringToHex`: hex strings pass through
(zero-padded to even length), anything else is UTF-8 encoded to hex. -/
def stringToHex (str : String) : String :=
  if testAllHex str then
    if str.data.length % 2 ≠ 0 then ⟨'0' :: str.data⟩ else str
  else
    ⟨bytesToHexChars (utf8Encode str.data)⟩

/-- The reserved marker of encrypted tokens. -/
def encMarker : String := "encrypted:"

/-- The `cleanHex` of `hexToString`: JS `hex.replace(/^0+/, "") || "0"`. -/
def cleanHexOf (hex : String) : String :=
  if (hex.data.dropWhile (· = '0')).isEmpty then "0"
  else ⟨hex.data.dropWhile (· = '0')⟩

/-- The `decoded` of `hexToString`:
JS `Buffer.from(cleanHex, "hex").toString("utf8")`. -/
def decodedOf (hex : String) : String :=
  ⟨utf8Decode (hexPairsToBytes (cleanHexOf hex).data)⟩

/-- From src/utils/shamir.ts, `hexToString`: strip leading zero digits,
keep 64-digit hex as a key, otherwise decode as UTF-8 and classify
(Node's Buffer never throws here, so the source's catch branch is dead). -/
def hexToString (hex : String) : String :=
  if (cleanHexOf hex).data.length = 64 ∧ testAllHex (cleanHexOf hex) then
    cleanHexOf hex
  else if jsStartsWith (decodedOf hex) encMarker then decodedOf hex
  else if testLowerOrSpace (decodedOf hex)
      ∧ 12 ≤ (splitOnChar ' ' (decodedOf hex).data).length then decodedOf hex
  else if 0 < (decodedOf hex).data.length ∧ testHasPrintable (decodedOf hex) then
    decodedOf hex
  else cleanHexOf hex

/-! ### src/utils/encryption.ts with the crypto-js cipher modelled -/

/-- Hex rendering of a 16-byte salt drawn from the entropy source. -/
def saltHexChars (salt : Nat) : List Char :=
  bytesToHexChars ((List.range 16).map fun i => salt / 256 ^ i % 256)

/-- Modelled from the spec: the crypto-js password cipher (absent from
src).  The ciphertext records a fresh 16-byte salt, a key-check encoding
of the password, and the payload; faithful to the spec contract that
decryption checks the derived key and is all-or-nothing. -/
def cipherEncode (salt : Nat) (password text : String) : String :=
  ⟨saltHexChars salt ++ bytesToHexChars (utf8Encode password.data) ++ ':' :: text.data⟩

/-- Modelled from the spec: crypto-js decryption; `none` when the key
check fails or the token is unparseable. -/
def cipherDecode (cipher password : String) : Option String :=
  let body := cipher.data.drop 32
  let rest := body.dropWhile (· ≠ ':')
  if rest.isEmpty then none
  else if body.takeWhile (· ≠ ':') = bytesToHexChars (utf8Encode password.data) then
    some ⟨rest.tail⟩
  else none

/-- From src/utils/encryption.ts: `isEncrypted`. -/
def isEncrypted (text : String) : Bool := jsStartsWith text encMarker

/-- From src/utils/encryption.ts: `encrypt` produces
"encrypted:" followed by the ciphertext; `salt` is the fresh entropy
drawn by the cipher for this call. -/
def encrypt (text password : String) (salt : Nat) : String :=
  encMarker ++ cipherEncode salt password text

/-- The message of the decryption failure raised in src/utils/encryption.ts. -/
def decryptFailMsg : String := "Failed to decrypt - invalid password or corrupted data"

/-- From src/utils/encryption.ts: `decrypt` strips the marker when present,
runs the cipher, and rejects an empty result. -/
def decrypt (encryptedText password : String) : Except String String :=
  let cleanText : String :=
    if jsStartsWith encryptedText encMarker then ⟨encryptedText.data.drop 10⟩
    else encryptedText
  match cipherDecode cleanText password with
  | some result => if result.data.isEmpty then .error decryptFailMsg else .ok result
  | none => .error decryptFailMsg

/-- From src/utils/encryption.ts: `encryptShares` maps `encrypt` over the
shares; the cipher draws a fresh salt for each call. -/
def encryptShares (shares : List String) (password : String) (salts : Nat → Nat) :
    List String :=
  (List.range shares.length).map fun i => encrypt (shares.getD i "") password (salts i)

/-- From src/utils/encryption.ts: `decryptShares`; the first failing share
aborts the whole map, as a thrown exception does. -/
def decryptShares (encryptedShares : List String) (password : String) :
    Except String (List String) :=
  encryptedShares.mapM fun share => decrypt share password

/-! ### The secrets.js-grempe engine, modelled from the spec -/

/-- Clamp a byte value into GF(2^8). -/
def gfByte (n : Nat) : GF := ⟨n % 256, Nat.mod_lt _ (by omega)⟩

/-- Modelled from the spec: the share codec — a field-width tag `"8"`, the
share id as two hex digits, then the hex payload (section 4.4). -/
def mkShareToken (id : Nat) (payload : List Nat) : String :=
  ⟨'8' :: toHexDigit (id / 16 % 16) :: toHexDigit (id % 16) :: bytesToHexChars payload⟩

/-- Modelled from the spec: decoding of a share token; `none` on a
malformed token (bad tag, bad hex, odd payload, or id zero). -/
def parseShareToken (token : String) : Option (Nat × List Nat) :=
  match token.data with
  | c0 :: c1 :: c2 :: rest =>
      if c0 == '8' && isHexDigitChar c1 && isHexDigitChar c2
          && rest.all isHexDigitChar && rest.length % 2 == 0
          && (hexDigitVal c1 * 16 + hexDigitVal c2 != 0) then
        some (hexDigitVal c1 * 16 + hexDigitVal c2, hexPairsToBytes rest)
      else none
  | _ => none

def errFieldCap : String := "Number of shares must be an integer between 2 and 2^bits-1"

def errThresholdRange : String :=
  "Threshold number of shares must be an integer between 2 and 2^bits-1"

def errThresholdOverCount : String :=
  "Threshold number of shares cannot exceed the total number of shares"

def errMalformedShare : String := "Invalid share: malformed share"

def errDuplicateShare : String := "Invalid share: duplicate share id"

def errIncompatibleShares : String := "Invalid share: incompatible shares"

/-- Per-byte share payload: evaluate the random polynomial with the secret
byte as constant term at the point `x` (spec section 4.2). -/
def sharePayload (bytes : List Nat) (threshold : Nat) (coeffs : Nat → Nat → GF)
    (x : GF) : List Nat :=
  bytes.mapIdx fun i s =>
    (evalPoly (gfByte s :: (List.range (threshold - 1)).map (coeffs i)) x).val

/-- Modelled from the spec: `secrets.share` — validate the configuration
against the field capacity, then produce one token per point 1..n
(sections 4.2 and 4.4). -/
def secretsShare (hexSecret : String) (numShares threshold : Nat)
    (coeffs : Nat → Nat → GF) : Except String (List String) :=
  if numShares < 2 ∨ 255 < numShares then .error errFieldCap
  else if threshold < 2 ∨ 255 < threshold then .error errThresholdRange
  else if numShares < threshold then .error errThresholdOverCount
  else
    let bytes := hexPairsToBytes hexSecret.data
    .ok ((List.range numShares).map fun j =>
      mkShareToken (j + 1) (sharePayload bytes threshold coeffs (gfByte (j + 1))))

/-- Modelled from the spec: `secrets.combine` — parse the tokens, reject
malformed, duplicate-id or incompatible sets, then recover each byte by
Lagrange interpolation at zero (section 4.3). -/
def secretsCombine (shares : List String) : Except String String :=
  match shares.mapM parseShareToken with
  | none => .error errMalformedShare
  | some parsed =>
      if (parsed.map Prod.fst).Nodup then
        if parsed.all fun p => p.2.length == (parsed.headI).2.length then
          .ok ⟨bytesToHexChars
            ((List.range (parsed.headI).2.length).map fun i =>
              (combineByte (parsed.map fun p => (gfByte p.1, gfByte (p.2.getD i 0)))).val)⟩
        else .error errIncompatibleShares
      else .error errDuplicateShare

/-! ### src/utils/shamir.ts: the ShamirSecretSharing operations -/

/-- JS string value of the optional password parameter. -/
def pwString : Option String → String
  | none => ""
  | some p => p

/-- JS truthiness of the optional password parameter (an empty password
behaves as no password in the source). -/
def pwTruthy (pw : Option String) : Bool := !(pwString pw).isEmpty

def errThresholdGT : String := "Threshold cannot be greater than total shares"

def errThresholdMin : String := "Threshold must be at least 2"

def errSharesMin : String := "Total shares must be at least 2"

def errSharesRequired : String := "At least 2 shares are required"

def wrapCreateMsg (m : String) : String := "Failed to create shares: " ++ m

def wrapRestoreMsg (m : String) : String := "Failed to restore secret: " ++ m

/-- From src/utils/shamir.ts, `createShares`: validate, optionally encrypt
the secret, hex-encode, split, optionally encrypt each share; errors of
the body are wrapped by the catch clause.  `salts` and `coeffs` supply the
entropy consumed by the call. -/
def createShares (secret : String) (totalShares threshold : Nat)
    (password : Option String) (salts : Nat → Nat) (coeffs : Nat → Nat → GF) :
    Except String (List String) :=
  if threshold > totalShares then .error errThresholdGT
  else if threshold < 2 then .error errThresholdMin
  else if totalShares < 2 then .error errSharesMin
  else
    let secretToShare :=
      if pwTruthy password then encrypt secret (pwString password) (salts 0) else secret
    let hexSecret := stringToHex secretToShare
    match
      (secretsShare hexSecret totalShares threshold coeffs).map fun shares =>
        if pwTruthy password then
          encryptShares shares (pwString password) (fun i => salts (i + 1))
        else shares
    with
    | .ok v => .ok v
    | .error m => .error (wrapCreateMsg m)

/-- The try-block of `restoreSecret`: decrypt the shares when a password is
given and the first share looks encrypted, combine, decode, and decrypt
the decoded secret when it looks encrypted. -/
def restoreBody (shares : List String) (password : Option String) :
    Except String String := do
  let sharesToUse ←
    if pwTruthy password && isEncrypted shares.headI then
      decryptShares shares (pwString password)
    else .ok shares
  let restoredHexSecret ← secretsCombine sharesToUse
  let restoredSecret := hexToString restoredHexSecret
  if pwTruthy password && isEncrypted restoredSecret then
    decrypt restoredSecret (pwString password)
  else .ok restoredSecret

/-- From src/utils/shamir.ts, `restoreSecret`: the share-count guard runs
before the try-block; body errors are wrapped by the catch clause. -/
def restoreSecret (shares : List String) (password : Option String) :
    Except String String :=
  if shares.length < 2 then .error errSharesRequired
  else
    match restoreBody shares password with
    | .ok v => .ok v
    | .error m => .error (wrapRestoreMsg m)

/-! ### Facts about hex digits and the hex codec -/

theorem char_le_iff {a b : Char} : a ≤ b ↔ a.toNat ≤ b.toNat :=
  Iff.trans Char.le_def (Iff.trans UInt32.le_def BitVec.le_def)

theorem isValidChar_small {n : Nat} (h : n < 55296) : n.isValidChar := Or.inl h

theorem toNat_char_ofNat_valid {n : Nat} (h : n.isValidChar) :
    (Char.ofNat n).toNat = n := by
  rw [Char.ofNat, dif_pos h]
  simp [Char.ofNatAux, Char.toNat, UInt32.toNat]

theorem char_valid_toNat (c : Char) :
    c.toNat < 55296 ∨ (57343 < c.toNat ∧ c.toNat < 1114112) := c.valid

@[simp] theorem toNat_lit_zero : ('0' : Char).toNat = 48 := rfl

@[simp] theorem toNat_lit_nine : ('9' : Char).toNat = 57 := rfl

@[simp] theorem toNat_lit_la : ('a' : Char).toNat = 97 := rfl

@[simp] theorem toNat_lit_lf : ('f' : Char).toNat = 102 := rfl

@[simp] theorem toNat_lit_lz : ('z' : Char).toNat = 122 := rfl

@[simp] theorem toNat_lit_ua : ('A' : Char).toNat = 65 := rfl

@[simp] theorem toNat_lit_uf : ('F' : Char).toNat = 70 := rfl

@[simp] theorem toNat_lit_colon : (':' : Char).toNat = 58 := rfl

@[simp] theorem toNat_lit_space : (' ' : Char).toNat = 32 := rfl

theorem hexDigitVal_lt16_all (c : Char) : hexDigitVal c < 16 := by
  unfold hexDigitVal
  repeat' split
  all_goals omega

theorem isHexDigitChar_iff {c : Char} :
    isHexDigitChar c = true ↔
      (48 ≤ c.toNat ∧ c.toNat ≤ 57) ∨ (97 ≤ c.toNat ∧ c.toNat ≤ 102) ∨
        (65 ≤ c.toNat ∧ c.toNat ≤ 70) := by
  simp [isHexDigitChar, or_assoc]

theorem toHexDigit_toNat {n : Nat} (h : n < 16) :
    (toHexDigit n).toNat = if n < 10 then 48 + n else 97 + (n - 10) := by
  unfold toHexDigit
  split
  · exact toNat_char_ofNat_valid (isValidChar_small (by omega))
  · exact toNat_char_ofNat_valid (isValidChar_small (by omega))

theorem isHexDigitChar_toHexDigit {n : Nat} (h : n < 16) :
    isHexDigitChar (toHexDigit n) = true := by
  rw [isHexDigitChar_iff, toHexDigit_toNat h]
  split <;> omega

theorem hexDigitVal_toHexDigit {n : Nat} (h : n < 16) :
    hexDigitVal (toHexDigit n) = n := by
  have ht := toHexDigit_toNat h
  unfold hexDigitVal
  by_cases h10 : n < 10
  · rw [if_pos h10] at ht
    rw [if_pos (by omega)]
    omega
  · rw [if_neg h10] at ht
    rw [if_neg (by omega), if_pos (by omega)]
    omega

theorem toHexDigit_ne_colon {n : Nat} (h : n < 16) : toHexDigit n ≠ ':' := by
  intro hcon
  have ht := toHexDigit_toNat h
  rw [hcon, toNat_lit_colon] at ht
  revert ht
  split <;> omega

/-- Lowercase hex digit: the character class emitted by the hex encoder. -/
def IsLowerHexChar (c : Char) : Prop :=
  (48 ≤ c.toNat ∧ c.toNat ≤ 57) ∨ (97 ≤ c.toNat ∧ c.toNat ≤ 102)

theorem toHexDigit_lower {n : Nat} (h : n < 16) : IsLowerHexChar (toHexDigit n) := by
  have ht := toHexDigit_toNat h
  unfold IsLowerHexChar
  by_cases h10 : n < 10
  · rw [if_pos h10] at ht
    omega
  · rw [if_neg h10] at ht
    omega

theorem isHexDigitChar_of_lower {c : Char} (h : IsLowerHexChar c) :
    isHexDigitChar c = true := by
  rw [isHexDigitChar_iff]
  unfold IsLowerHexChar at h
  omega

theorem toHexDigit_hexDigitVal_lower {c : Char} (h : IsLowerHexChar c) :
    toHexDigit (hexDigitVal c) = c := by
  unfold IsLowerHexChar at h
  rcases h with h | h
  · have hv : hexDigitVal c = c.toNat - 48 := by
      unfold hexDigitVal
      rw [if_pos (by omega)]
    rw [hv]
    unfold toHexDigit
    rw [if_pos (by omega)]
    have he : 48 + (c.toNat - 48) = c.toNat := by omega
    rw [he, Char.ofNat_toNat]
  · have hv : hexDigitVal c = c.toNat - 97 + 10 := by
      unfold hexDigitVal
      rw [if_neg (by omega), if_pos (by omega)]
    rw [hv]
    unfold toHexDigit
    rw [if_neg (by omega)]
    have he : 97 + (c.toNat - 97 + 10 - 10) = c.toNat := by omega
    rw [he, Char.ofNat_toNat]

theorem bytesToHexChars_length (bs : List Nat) :
    (bytesToHexChars bs).length = 2 * bs.length := by
  induction bs with
  | nil => rfl
  | cons b bs ih => simp [bytesToHexChars, ih]; omega

theorem bytesToHexChars_append (a b : List Nat) :
    bytesToHexChars (a ++ b) = bytesToHexChars a ++ bytesToHexChars b := by
  induction a with
  | nil => rfl
  | cons x a ih => simp [bytesToHexChars, ih]

theorem bytesToHexChars_lower (bs : List Nat) :
    ∀ c ∈ bytesToHexChars bs, IsLowerHexChar c := by
  induction bs with
  | nil => intro c hc; cases hc
  | cons b bs ih =>
      intro c hc
      rcases hc with _ | ⟨_, hc⟩
      · exact toHexDigit_lower (by omega)
      · rcases hc with _ | ⟨_, hc⟩
        · exact toHexDigit_lower (by omega)
        · exact ih c hc

theorem bytesToHexChars_all_hex (bs : List Nat) :
    ∀ c ∈ bytesToHexChars bs, isHexDigitChar c = true :=
  fun c hc => isHexDigitChar_of_lower (bytesToHexChars_lower bs c hc)

theorem hexPairsToBytes_bytesToHexChars (bs : List Nat) (h : ∀ b ∈ bs, b < 256) :
    hexPairsToBytes (bytesToHexChars bs) = bs := by
  induction bs with
  | nil => rfl
  | cons b bs ih =>
      have hb : b < 256 := h b (by simp)
      have hdiv : b / 16 % 16 = b / 16 := by omega
      show hexPairsToBytes (toHexDigit (b / 16 % 16) :: toHexDigit (b % 16) :: bytesToHexChars bs) = b :: bs
      rw [hexPairsToBytes]
      rw [if_pos]
      · rw [hexDigitVal_toHexDigit (by omega), hexDigitVal_toHexDigit (by omega)]
        rw [ih (fun x hx => h x (by simp [hx]))]
        congr 1
        omega
      · rw [isHexDigitChar_toHexDigit (by omega), isHexDigitChar_toHexDigit (by omega)]
        rfl

theorem hexPairsToBytes_lt (cs : List Char) : ∀ b ∈ hexPairsToBytes cs, b < 256 := by
  induction cs using hexPairsToBytes.induct with
  | case1 c1 c2 rest htest ih =>
      intro b hb
      rw [hexPairsToBytes, if_pos htest] at hb
      rcases hb with _ | ⟨_, hb⟩
      · have := hexDigitVal_lt16_all c1
        have := hexDigitVal_lt16_all c2
        omega
      · exact ih b hb
  | case2 c1 c2 rest htest =>
      intro b hb
      rw [hexPairsToBytes, if_neg htest] at hb
      cases hb
  | case3 cs hcs =>
      intro b hb
      rw [hexPairsToBytes] at hb
      · cases hb
      · exact hcs

theorem bytesToHexChars_hexPairsToBytes (cs : List Char)
    (hall : ∀ c ∈ cs, IsLowerHexChar c) (heven : cs.length % 2 = 0) :
    bytesToHexChars (hexPairsToBytes cs) = cs := by
  induction cs using hexPairsToBytes.induct with
  | case1 c1 c2 rest htest ih =>
      rw [hexPairsToBytes, if_pos htest, bytesToHexChars]
      have h1 : IsLowerHexChar c1 := hall c1 (by simp)
      have h2 : IsLowerHexChar c2 := hall c2 (by simp)
      have hv1 := hexDigitVal_lt16_all c1
      have hv2 := hexDigitVal_lt16_all c2
      have e1 : (hexDigitVal c1 * 16 + hexDigitVal c2) / 16 % 16 = hexDigitVal c1 := by
        omega
      have e2 : (hexDigitVal c1 * 16 + hexDigitVal c2) % 16 = hexDigitVal c2 := by
        omega
      rw [e1, e2, toHexDigit_hexDigitVal_lower h1, toHexDigit_hexDigitVal_lower h2]
      rw [ih (fun c hc => hall c (by simp [hc])) (by simp at heven; omega)]
  | case2 c1 c2 rest htest =>
      exfalso
      apply htest
      have h1 : IsLowerHexChar c1 := hall c1 (by simp)
      have h2 : IsLowerHexChar c2 := hall c2 (by simp)
      rw [isHexDigitChar_of_lower h1, isHexDigitChar_of_lower h2]
      rfl
  | case3 cs hcs =>
      match cs, hcs with
      | [], _ => rfl
      | [c], h => simp at heven
      | c1 :: c2 :: rest, h => exact absurd rfl (h c1 c2 rest)


/-! ### Correctness of the UTF-8 codec -/

theorem utf8EncodeChar_lt (c : Char) : ∀ b ∈ utf8EncodeChar c, b < 256 := by
  have hv := char_valid_toNat c
  intro b hb
  unfold utf8EncodeChar at hb
  by_cases h1 : c.toNat < 0x80
  · rw [if_pos h1] at hb
    simp at hb
    omega
  · by_cases h2 : c.toNat < 0x800
    · rw [if_neg h1, if_pos h2] at hb
      simp at hb
      omega
    · by_cases h3 : c.toNat < 0x10000
      · rw [if_neg h1, if_neg h2, if_pos h3] at hb
        simp at hb
        omega
      · rw [if_neg h1, if_neg h2, if_neg h3] at hb
        simp at hb
        omega

theorem utf8Encode_lt (cs : List Char) : ∀ b ∈ utf8Encode cs, b < 256 := by
  induction cs with
  | nil =>
      intro b hb
      cases hb
  | cons c cs ih =>
      intro b hb
      rw [utf8Encode] at hb
      rcases List.mem_append.mp hb with h | h
      · exact utf8EncodeChar_lt c b h
      · exact ih b h

theorem utf8EncodeChar_ne_nil (c : Char) : utf8EncodeChar c ≠ [] := by
  unfold utf8EncodeChar
  by_cases h1 : c.toNat < 0x80
  · rw [if_pos h1]
    simp
  · by_cases h2 : c.toNat < 0x800
    · rw [if_neg h1, if_pos h2]
      simp
    · by_cases h3 : c.toNat < 0x10000
      · rw [if_neg h1, if_neg h2, if_pos h3]
        simp
      · rw [if_neg h1, if_neg h2, if_neg h3]
        simp

theorem utf8StartByte_ascii {b : Nat} (h : b ≤ 0x7F) :
    utf8StartByte b = ([Char.ofNat b], (0, 0, 0x80, 0xBF)) := by
  unfold utf8StartByte
  rw [if_pos h]

theorem utf8StartByte_two {b : Nat} (h1 : 0xC2 ≤ b) (h2 : b ≤ 0xDF) :
    utf8StartByte b = ([], (1, b - 0xC0, 0x80, 0xBF)) := by
  unfold utf8StartByte
  rw [if_neg (by omega), if_pos ⟨h1, h2⟩]

theorem utf8StartByte_three {b : Nat} (h1 : 0xE0 ≤ b) (h2 : b ≤ 0xEF) :
    utf8StartByte b
      = ([], (2, b - 0xE0, if b = 0xE0 then 0xA0 else 0x80,
          if b = 0xED then 0x9F else 0xBF)) := by
  unfold utf8StartByte
  rw [if_neg (by omega), if_neg (by omega), if_pos ⟨h1, h2⟩]

theorem utf8StartByte_four {b : Nat} (h1 : 0xF0 ≤ b) (h2 : b ≤ 0xF4) :
    utf8StartByte b
      = ([], (3, b - 0xF0, if b = 0xF0 then 0x90 else 0x80,
          if b = 0xF4 then 0x8F else 0xBF)) := by
  unfold utf8StartByte
  rw [if_neg (by omega), if_neg (by omega), if_neg (by omega), if_pos ⟨h1, h2⟩]

theorem utf8Go_nil (needed cp lo hi : Nat) :
    utf8Go needed cp lo hi [] = if needed = 0 then [] else [Char.ofNat 0xFFFD] := by
  simp [utf8Go]

theorem utf8Go_start (cp lo hi b : Nat) (bs : List Nat) :
    utf8Go 0 cp lo hi (b :: bs) =
      (utf8StartByte b).1 ++
        utf8Go (utf8StartByte b).2.1 (utf8StartByte b).2.2.1
          (utf8StartByte b).2.2.2.1 (utf8StartByte b).2.2.2.2 bs := by
  simp [utf8Go]

theorem utf8Go_cont_last (cp lo hi b : Nat) (bs : List Nat)
    (hlo : lo ≤ b) (hhi : b ≤ hi) :
    utf8Go 1 cp lo hi (b :: bs)
      = Char.ofNat (cp * 64 + (b - 0x80)) :: utf8Go 0 0 0x80 0xBF bs := by
  simp only [utf8Go]
  rw [if_neg (by omega), if_pos ⟨hlo, hhi⟩]
  simp

theorem utf8Go_cont_step (needed cp lo hi b : Nat) (bs : List Nat)
    (hn : needed ≠ 0) (hn1 : needed ≠ 1) (hlo : lo ≤ b) (hhi : b ≤ hi) :
    utf8Go needed cp lo hi (b :: bs)
      = utf8Go (needed - 1) (cp * 64 + (b - 0x80)) 0x80 0xBF bs := by
  simp only [utf8Go]
  rw [if_neg hn, if_pos ⟨hlo, hhi⟩, if_neg hn1]

theorem utf8Go_encodeChar (c : Char) (rest : List Nat) :
    utf8Go 0 0 0x80 0xBF (utf8EncodeChar c ++ rest)
      = c :: utf8Go 0 0 0x80 0xBF rest := by
  have hv := char_valid_toNat c
  unfold utf8EncodeChar
  by_cases h1 : c.toNat < 0x80
  · rw [if_pos h1, List.singleton_append, utf8Go_start,
      utf8StartByte_ascii (by omega)]
    simp [Char.ofNat_toNat]
  · by_cases h2 : c.toNat < 0x800
    · rw [if_neg h1, if_pos h2, List.cons_append, List.cons_append,
        List.nil_append, utf8Go_start, utf8StartByte_two (by omega) (by omega)]
      simp only [List.nil_append]
      have he1 : 0xC0 + c.toNat / 64 - 0xC0 = c.toNat / 64 := by omega
      rw [he1, utf8Go_cont_last _ _ _ _ _ (by omega) (by omega)]
      have he2 : c.toNat / 64 * 64 + (0x80 + c.toNat % 64 - 0x80) = c.toNat := by
        omega
      rw [he2, Char.ofNat_toNat]
    · by_cases h3 : c.toNat < 0x10000
      · rw [if_neg h1, if_neg h2, if_pos h3, List.cons_append, List.cons_append,
          List.cons_append, List.nil_append, utf8Go_start,
          utf8StartByte_three (by omega) (by omega)]
        simp only [List.nil_append]
        have he1 : 0xE0 + c.toNat / 4096 - 0xE0 = c.toNat / 4096 := by omega
        rw [he1, utf8Go_cont_step _ _ _ _ _ _ (by omega) (by omega) ?hlo ?hhi]
        case hlo =>
          split
          · rename_i hc
            have : c.toNat < 4096 := by omega
            omega
          · omega
        case hhi =>
          split
          · rename_i hc
            have h13 : c.toNat / 4096 = 13 := by omega
            omega
          · omega
        rw [utf8Go_cont_last _ _ _ _ _ (by omega) (by omega)]
        have he2 : c.toNat / 4096 * 64 + (0x80 + c.toNat / 64 % 64 - 0x80) = 
            c.toNat / 64 := by omega
        rw [he2]
        have he3 : c.toNat / 64 * 64 + (0x80 + c.toNat % 64 - 0x80) = c.toNat := by
          omega
        rw [he3, Char.ofNat_toNat]
      · rw [if_neg h1, if_neg h2, if_neg h3, List.cons_append, List.cons_append,
          List.cons_append, List.cons_append, List.nil_append, utf8Go_start,
          utf8StartByte_four (by omega) (by omega)]
        simp only [List.nil_append]
        have he1 : 0xF0 + c.toNat / 262144 - 0xF0 = c.toNat / 262144 := by omega
        rw [he1, utf8Go_cont_step _ _ _ _ _ _ (by omega) (by omega) ?hlo4 ?hhi4]
        case hlo4 =>
          split
          · rename_i hc
            have : c.toNat < 262144 := by omega
            omega
          · omega
        case hhi4 =>
          split
          · rename_i hc
            have h4 : c.toNat / 262144 = 4 := by omega
            omega
          · omega
        rw [utf8Go_cont_step _ _ _ _ _ _ (by omega) (by omega) (by omega) (by omega)]
        rw [utf8Go_cont_last _ _ _ _ _ (by omega) (by omega)]
        have he2 : (c.toNat / 262144 * 64 + (0x80 + c.toNat / 4096 % 64 - 0x80)) * 64
              + (0x80 + c.toNat / 64 % 64 - 0x80) = c.toNat / 64 := by
          omega
        rw [he2]
        have he3 : c.toNat / 64 * 64 + (0x80 + c.toNat % 64 - 0x80) = c.toNat := by
          omega
        rw [he3, Char.ofNat_toNat]

theorem utf8Go_encode (cs : List Char) (rest : List Nat) :
    utf8Go 0 0 0x80 0xBF (utf8Encode cs ++ rest)
      = cs ++ utf8Go 0 0 0x80 0xBF rest := by
  induction cs with
  | nil => rfl
  | cons c cs ih =>
      rw [utf8Encode, List.append_assoc, utf8Go_encodeChar, ih, List.cons_append]

theorem utf8Decode_encode (cs : List Char) : utf8Decode (utf8Encode cs) = cs := by
  have h := utf8Go_encode cs []
  rw [List.append_nil] at h
  rw [utf8Decode, h, utf8Go_nil, if_pos rfl, List.append_nil]

theorem utf8Encode_injective {a b : List Char} (h : utf8Encode a = utf8Encode b) :
    a = b := by
  have ha := utf8Decode_encode a
  have hb := utf8Decode_encode b
  rw [← ha, ← hb, h]

theorem utf8Encode_ne_nil {cs : List Char} (h : cs ≠ []) : utf8Encode cs ≠ [] := by
  match cs, h with
  | c :: cs, _ =>
      rw [utf8Encode]
      intro hcon
      exact utf8EncodeChar_ne_nil c (List.append_eq_nil.mp hcon).1

theorem utf8EncodeChar_ascii {c : Char} (h : c.toNat < 0x80) :
    utf8EncodeChar c = [c.toNat] := by
  unfold utf8EncodeChar
  rw [if_pos h]

theorem utf8Encode_ascii {cs : List Char} (h : ∀ c ∈ cs, c.toNat < 0x80) :
    utf8Encode cs = cs.map Char.toNat := by
  induction cs with
  | nil => rfl
  | cons c cs ih =>
      rw [utf8Encode, utf8EncodeChar_ascii (h c (by simp)), List.map_cons,
        ih (fun x hx => h x (by simp [hx])), List.singleton_append]


/-! ### Round trip of the modelled engine -/

theorem gfByte_val {n : Nat} (h : n < 256) : (gfByte n).val = n := by
  simp [gfByte, Nat.mod_eq_of_lt h]

theorem gfByte_of_val (x : GF) : gfByte x.val = x :=
  GF.ext_val (by simp [gfByte, Nat.mod_eq_of_lt x.isLt])

theorem gfByte_inj {a b : Nat} (ha : a < 256) (hb : b < 256)
    (h : gfByte a = gfByte b) : a = b := by
  have hv := congrArg GF.val h
  rwa [gfByte_val ha, gfByte_val hb] at hv

theorem range_map_getD {α : Type} {f : Nat → α} {n i : Nat} (h : i < n) (d : α) :
    ((List.range n).map f).getD i d = f i := by
  rw [List.getD_eq_getElem _ _ (by simp [h])]
  simp

theorem sharePayload_length (bytes : List Nat) (t : Nat) (coeffs : Nat → Nat → GF)
    (x : GF) : (sharePayload bytes t coeffs x).length = bytes.length := by
  simp [sharePayload]

theorem sharePayload_getD (bytes : List Nat) (t : Nat) (coeffs : Nat → Nat → GF)
    (x : GF) {i : Nat} (hi : i < bytes.length) :
    (sharePayload bytes t coeffs x).getD i 0
      = (evalPoly (gfByte (bytes.getD i 0) :: (List.range (t - 1)).map (coeffs i))
          x).val := by
  unfold sharePayload
  rw [List.getD_eq_getElem _ _ (by simpa using hi), List.getElem_mapIdx]
  congr 2
  rw [List.getD_eq_getElem _ _ hi]

theorem sharePayload_lt (bytes : List Nat) (t : Nat) (coeffs : Nat → Nat → GF)
    (x : GF) : ∀ b ∈ sharePayload bytes t coeffs x, b < 256 := by
  intro b hb
  rw [List.mem_iff_getElem] at hb
  obtain ⟨i, hi, hb⟩ := hb
  unfold sharePayload at hb
  rw [List.getElem_mapIdx] at hb
  rw [← hb]
  exact (evalPoly _ _).isLt

theorem parseShareToken_mk {id : Nat} (h1 : 1 ≤ id) (h2 : id ≤ 255)
    (payload : List Nat) (hp : ∀ b ∈ payload, b < 256) :
    parseShareToken (mkShareToken id payload) = some (id, payload) := by
  have hd1 : isHexDigitChar (toHexDigit (id / 16 % 16)) = true :=
    isHexDigitChar_toHexDigit (by omega)
  have hd2 : isHexDigitChar (toHexDigit (id % 16)) = true :=
    isHexDigitChar_toHexDigit (by omega)
  have hv1 : hexDigitVal (toHexDigit (id / 16 % 16)) = id / 16 := by
    rw [hexDigitVal_toHexDigit (by omega)]
    omega
  have hv2 : hexDigitVal (toHexDigit (id % 16)) = id % 16 :=
    hexDigitVal_toHexDigit (by omega)
  have hall : (bytesToHexChars payload).all isHexDigitChar = true :=
    List.all_eq_true.mpr (bytesToHexChars_all_hex payload)
  have heven : ((bytesToHexChars payload).length % 2 == 0) = true := by
    rw [bytesToHexChars_length]
    simp [Nat.mul_mod_right]
  have hid : id / 16 * 16 + id % 16 = id := by omega
  show parseShareToken ⟨_ :: _ :: _ :: _⟩ = _
  rw [parseShareToken]
  simp only [hd1, hd2, hall, heven, hv1, hv2, hid, Bool.and_true, Bool.true_and,
    beq_self_eq_true]
  rw [if_pos (by simp [hid]; omega)]
  rw [hexPairsToBytes_bytesToHexChars payload hp]

theorem mapM_parse_tokens {α : Type} (g : α → String) (h : α → Nat × List Nat)
    (l : List α) (hl : ∀ x ∈ l, parseShareToken (g x) = some (h x)) :
    (l.map g).mapM parseShareToken = some (l.map h) := by
  induction l with
  | nil => rfl
  | cons a l ih =>
      rw [List.map_cons, List.map_cons, List.mapM_cons, hl a (by simp),
        ih (fun x hx => hl x (by simp [hx]))]
      rfl

theorem secretsShare_ok (hexSecret : String) (n t : Nat) (coeffs : Nat → Nat → GF)
    (h2 : 2 ≤ t) (htn : t ≤ n) (hn : n ≤ 255) :
    secretsShare hexSecret n t coeffs
      = .ok ((List.range n).map fun j =>
          mkShareToken (j + 1)
            (sharePayload (hexPairsToBytes hexSecret.data) t coeffs
              (gfByte (j + 1)))) := by
  rw [secretsShare, if_neg (by omega), if_neg (by omega), if_neg (by omega)]

theorem secretsCombine_share (hexSecret : String)
    (hall : ∀ c ∈ hexSecret.data, IsLowerHexChar c)
    (heven : hexSecret.data.length % 2 = 0)
    (n t : Nat) (h2 : 2 ≤ t) (htn : t ≤ n) (hn : n ≤ 255)
    (coeffs : Nat → Nat → GF) (tokens : List String)
    (htok : secretsShare hexSecret n t coeffs = .ok tokens)
    (idxs : List Nat) (hlen : idxs.length = t) (hnd : idxs.Nodup)
    (hmem : ∀ i ∈ idxs, i < n) :
    secretsCombine (idxs.map fun i => tokens.getD i "") = .ok hexSecret := by
  set bytes := hexPairsToBytes hexSecret.data with hbytes
  have hblt : ∀ b ∈ bytes, b < 256 := hexPairsToBytes_lt hexSecret.data
  rw [secretsShare_ok hexSecret n t coeffs h2 htn hn] at htok
  have htoks : tokens = (List.range n).map fun j =>
      mkShareToken (j + 1) (sharePayload bytes t coeffs (gfByte (j + 1))) := by
    cases htok
    rfl
  have hgetD : ∀ i ∈ idxs, tokens.getD i ""
      = mkShareToken (i + 1) (sharePayload bytes t coeffs (gfByte (i + 1))) := by
    intro i hi
    rw [htoks, range_map_getD (hmem i hi)]
  have hsel : idxs.map (fun i => tokens.getD i "")
      = idxs.map fun i =>
          mkShareToken (i + 1) (sharePayload bytes t coeffs (gfByte (i + 1))) :=
    List.map_congr_left hgetD
  have hparse : (idxs.map fun i =>
        mkShareToken (i + 1) (sharePayload bytes t coeffs (gfByte (i + 1)))).mapM
          parseShareToken
      = some (idxs.map fun i =>
          (i + 1, sharePayload bytes t coeffs (gfByte (i + 1)))) := by
    apply mapM_parse_tokens
    intro i hi
    exact parseShareToken_mk (by omega) (by have := hmem i hi; omega) _
      (sharePayload_lt bytes t coeffs _)
  set parsed := idxs.map fun i =>
    (i + 1, sharePayload bytes t coeffs (gfByte (i + 1))) with hparsed
  have hne : idxs ≠ [] := by
    intro hcon
    rw [hcon] at hlen
    simp at hlen
    omega
  have hids : parsed.map Prod.fst = idxs.map (· + 1) := by
    rw [hparsed, List.map_map]
    rfl
  have hidsnd : (parsed.map Prod.fst).Nodup := by
    rw [hids]
    exact hnd.map (fun a b => by omega)
  have hheadI : parsed.headI
      = (idxs.headI + 1, sharePayload bytes t coeffs (gfByte (idxs.headI + 1))) := by
    rw [hparsed]
    cases idxs with
    | nil => exact absurd rfl hne
    | cons a l => rfl
  have hheadlen : (parsed.headI).2.length = bytes.length := by
    rw [hheadI]
    exact sharePayload_length bytes t coeffs _
  have halllen : parsed.all (fun p => p.2.length == (parsed.headI).2.length)
      = true := by
    rw [List.all_eq_true]
    intro p hp
    rw [hparsed] at hp
    rw [List.mem_map] at hp
    obtain ⟨i, _, hieq⟩ := hp
    rw [beq_iff_eq, hheadlen, ← hieq]
    exact sharePayload_length bytes t coeffs _
  have hbyte : ∀ β < bytes.length,
      (combineByte (parsed.map fun p => (gfByte p.1, gfByte (p.2.getD β 0)))).val
        = bytes.getD β 0 := by
    intro β hβ
    set cs := gfByte (bytes.getD β 0) :: (List.range (t - 1)).map (coeffs β)
      with hcs
    have hpts : parsed.map (fun p => (gfByte p.1, gfByte (p.2.getD β 0)))
        = (idxs.map fun i => gfByte (i + 1)).map fun x => (x, evalPoly cs x) := by
      rw [hparsed, List.map_map, List.map_map]
      apply List.map_congr_left
      intro i hi
      show (gfByte (i + 1), gfByte ((sharePayload bytes t coeffs (gfByte (i + 1))).getD β 0))
        = (gfByte (i + 1), evalPoly cs (gfByte (i + 1)))
      rw [sharePayload_getD bytes t coeffs _ hβ, ← hcs, gfByte_of_val]
    rw [hpts, combineByte_recovers]
    · rw [hcs]
      simp only [List.headI]
      exact gfByte_val (hblt _ (by
        rw [List.getD_eq_getElem _ _ hβ]
        exact List.getElem_mem hβ))
    · apply List.Nodup.map_on
      · intro a ha b hb hab
        have := gfByte_inj (by have := hmem a ha; omega) (by have := hmem b hb; omega) hab
        omega
      · exact hnd
    · rw [hcs]
      simp
      omega
  rw [hsel, secretsCombine, hparse]
  dsimp only
  rw [if_pos hidsnd, if_pos halllen]
  congr 1
  have hcombined : (List.range (parsed.headI).2.length).map
      (fun β => (combineByte
        (parsed.map fun p => (gfByte p.1, gfByte (p.2.getD β 0)))).val)
      = bytes := by
    rw [hheadlen]
    apply List.ext_getElem
    · simp
    · intro i h1 h2
      simp only [List.getElem_map, List.getElem_range]
      rw [hbyte i (by simpa using h2), List.getD_eq_getElem _ _ (by simpa using h2)]
  rw [hcombined, hbytes, bytesToHexChars_hexPairsToBytes hexSecret.data hall heven]


/-! ### String and list helper facts -/

theorem string_eta (s : String) : (⟨s.data⟩ : String) = s := rfl

theorem isPrefixOf_append (p s : List Char) : p.isPrefixOf (p ++ s) = true := by
  induction p with
  | nil => simp [List.isPrefixOf]
  | cons a p ih => simp [List.isPrefixOf, ih]

theorem eq_append_of_isPrefixOf {p s : List Char} (h : p.isPrefixOf s = true) :
    s = p ++ s.drop p.length := by
  induction p generalizing s with
  | nil => simp
  | cons a p ih =>
      cases s with
      | nil => simp [List.isPrefixOf] at h
      | cons b s =>
          simp only [List.isPrefixOf, Bool.and_eq_true, beq_iff_eq] at h
          obtain ⟨rfl, h2⟩ := h
          simpa using ih h2

theorem mem_of_isPrefixOf {p s : List Char} (h : p.isPrefixOf s = true) :
    ∀ c ∈ p, c ∈ s := by
  intro c hc
  rw [eq_append_of_isPrefixOf h]
  exact List.mem_append.mpr (Or.inl hc)

theorem jsStartsWith_append (pre rest : String) :
    jsStartsWith ⟨pre.data ++ rest.data⟩ pre = true :=
  isPrefixOf_append pre.data rest.data

theorem isEncrypted_encrypt (text password : String) (salt : Nat) :
    isEncrypted (encrypt text password salt) = true := by
  rw [isEncrypted, encrypt, jsStartsWith]
  have hdata : (encMarker ++ cipherEncode salt password text).data
      = encMarker.data ++ (cipherEncode salt password text).data := rfl
  rw [hdata]
  exact isPrefixOf_append _ _

theorem not_isEncrypted_of_no_colon {s : String}
    (h : ∀ c ∈ s.data, c.toNat ≠ 58) : isEncrypted s = false := by
  rw [isEncrypted, jsStartsWith]
  by_contra hcon
  have hpre : encMarker.data.isPrefixOf s.data = true := by
    revert hcon
    cases hb : encMarker.data.isPrefixOf s.data <;> simp
  have hc : (':' : Char) ∈ s.data := mem_of_isPrefixOf hpre ':' (by decide)
  exact h ':' hc rfl

theorem takeWhile_append_all {α : Type} (p : α → Bool) (l1 l2 : List α)
    (h : ∀ c ∈ l1, p c = true) :
    (l1 ++ l2).takeWhile p = l1 ++ l2.takeWhile p := by
  induction l1 with
  | nil => rfl
  | cons a l ih =>
      have ha := h a (by simp)
      have hrec := ih (fun c hc => h c (by simp [hc]))
      simp [List.takeWhile_cons, ha, hrec]

theorem dropWhile_append_all {α : Type} (p : α → Bool) (l1 l2 : List α)
    (h : ∀ c ∈ l1, p c = true) :
    (l1 ++ l2).dropWhile p = l2.dropWhile p := by
  induction l1 with
  | nil => rfl
  | cons a l ih =>
      have ha := h a (by simp)
      have hrec := ih (fun c hc => h c (by simp [hc]))
      simp [List.dropWhile_cons, ha, hrec]

theorem splitOnChar_ne_nil (sep : Char) (l : List Char) :
    splitOnChar sep l ≠ [] := by
  induction l with
  | nil => simp [splitOnChar]
  | cons c rest ih =>
      rw [splitOnChar]
      by_cases hc : c = sep
      · simp [hc]
      · rw [if_neg hc]
        rcases hr : splitOnChar sep rest with _ | ⟨hd, tl⟩
        · simp
        · simp

theorem count_pos_of_split_ge {sep : Char} {l : List Char} {k : Nat}
    (hk : 2 ≤ k) (h : k ≤ (splitOnChar sep l).length) : sep ∈ l := by
  induction l with
  | nil =>
      rw [splitOnChar] at h
      simp at h
      omega
  | cons c rest ih =>
      rw [splitOnChar] at h
      by_cases hc : c = sep
      · rw [hc]
        exact List.mem_cons_self _ _
      · rw [if_neg hc] at h
        apply List.mem_cons_of_mem
        apply ih
        rcases hr : splitOnChar sep rest with _ | ⟨hd, tl⟩
        · exact absurd hr (splitOnChar_ne_nil sep rest)
        · rw [hr] at h
          simp at h ⊢
          omega

/-! ### Behaviour of the modelled cipher and of decrypt -/

theorem saltHexChars_length (salt : Nat) : (saltHexChars salt).length = 32 := by
  rw [saltHexChars, bytesToHexChars_length]
  simp

theorem hexChars_ne_colon (bs : List Nat) :
    ∀ c ∈ bytesToHexChars bs, decide (c ≠ ':') = true := by
  intro c hc
  have hl := bytesToHexChars_lower _ c hc
  rw [decide_eq_true_eq]
  intro hcon
  rw [hcon] at hl
  unfold IsLowerHexChar at hl
  simp at hl

theorem cipherEncode_data (salt : Nat) (password text : String) :
    (cipherEncode salt password text).data
      = saltHexChars salt ++ bytesToHexChars (utf8Encode password.data)
          ++ ':' :: text.data := by
  rw [cipherEncode]

theorem cipherDecode_encode_eval (salt : Nat) (password text pw2 : String) :
    cipherDecode (cipherEncode salt password text) pw2
      = if bytesToHexChars (utf8Encode password.data)
            = bytesToHexChars (utf8Encode pw2.data)
        then some text else none := by
  rw [cipherDecode, cipherEncode]
  have hdrop : ((⟨saltHexChars salt ++ bytesToHexChars (utf8Encode password.data)
      ++ ':' :: text.data⟩ : String)).data.drop 32
      = bytesToHexChars (utf8Encode password.data) ++ ':' :: text.data := by
    show (saltHexChars salt ++ bytesToHexChars (utf8Encode password.data)
      ++ ':' :: text.data).drop 32
      = bytesToHexChars (utf8Encode password.data) ++ ':' :: text.data
    rw [List.append_assoc, ← saltHexChars_length salt, List.drop_left]
  simp only [hdrop]
  rw [dropWhile_append_all _ _ _ (hexChars_ne_colon _),
    takeWhile_append_all _ _ _ (hexChars_ne_colon _)]
  simp [string_eta]

theorem cipherDecode_encode (salt : Nat) (password text : String) :
    cipherDecode (cipherEncode salt password text) password = some text := by
  rw [cipherDecode_encode_eval, if_pos rfl]

theorem hexUtf8_injective {a b : String}
    (h : bytesToHexChars (utf8Encode a.data) = bytesToHexChars (utf8Encode b.data)) :
    a = b := by
  have h1 : hexPairsToBytes (bytesToHexChars (utf8Encode a.data))
      = hexPairsToBytes (bytesToHexChars (utf8Encode b.data)) := by rw [h]
  rw [hexPairsToBytes_bytesToHexChars _ (utf8Encode_lt a.data),
    hexPairsToBytes_bytesToHexChars _ (utf8Encode_lt b.data)] at h1
  have h2 := utf8Encode_injective h1
  have h3 := congrArg (fun l => (⟨l⟩ : String)) h2
  simpa [string_eta] using h3

theorem cipherDecode_encode_wrong (salt : Nat) (password text : String)
    {pw2 : String} (hne : pw2 ≠ password) :
    cipherDecode (cipherEncode salt password text) pw2 = none := by
  rw [cipherDecode_encode_eval, if_neg]
  intro hcon
  exact hne (hexUtf8_injective hcon).symm

/-! ### Behaviour of the secret encoder and decoder -/

theorem testAllHex_true {s : String} (hne : s.data ≠ [])
    (h : ∀ c ∈ s.data, isHexDigitChar c = true) : testAllHex s = true := by
  rw [testAllHex]
  simp only [Bool.and_eq_true, Bool.not_eq_true', List.all_eq_true]
  refine ⟨?_, h⟩
  cases h2 : s.data.isEmpty
  · rfl
  · exact absurd (List.isEmpty_iff.mp h2) hne

theorem testAllHex_false_of_mem {s : String} {c : Char} (hc : c ∈ s.data)
    (h : isHexDigitChar c = false) : testAllHex s = false := by
  rw [testAllHex]
  simp only [Bool.and_eq_false_iff]
  right
  rw [List.all_eq_false]
  exact ⟨c, hc, by simp [h]⟩

theorem isHexDigitChar_space : isHexDigitChar ' ' = false := by decide

theorem isHexDigitChar_colon : isHexDigitChar ':' = false := by decide

theorem stringToHex_hex_even {s : String} (h : testAllHex s = true)
    (heven : s.data.length % 2 = 0) : stringToHex s = s := by
  rw [stringToHex, if_pos h, if_neg (by omega)]

theorem stringToHex_utf8 {s : String} (h : testAllHex s = false) :
    stringToHex s = ⟨bytesToHexChars (utf8Encode s.data)⟩ := by
  rw [stringToHex, h]
  simp

theorem cleanHexOf_no_strip {s : String} {c : Char} {rest : List Char}
    (hcs : s.data = c :: rest) (hc : c ≠ '0') : cleanHexOf s = s := by
  have hdrop : s.data.dropWhile (· = '0') = s.data := by
    rw [hcs, List.dropWhile_cons, if_neg (by simpa using hc)]
  rw [cleanHexOf, hdrop, hcs]
  simp only [List.isEmpty_cons]
  rw [if_neg (by simp)]
  rw [← hcs, string_eta]

theorem toHexDigit_ne_zero {k : Nat} (h1 : 1 ≤ k) (h2 : k < 16) :
    toHexDigit k ≠ '0' := by
  intro hcon
  have ht := toHexDigit_toNat h2
  rw [hcon, toNat_lit_zero] at ht
  revert ht
  split <;> omega

theorem hexToString_key {s : String} (hlen : s.data.length = 64)
    (hhex : ∀ c ∈ s.data, IsLowerHexChar c) (hhead : s.data.headI ≠ '0') :
    hexToString s = s := by
  obtain ⟨c, rest, hcs⟩ : ∃ c rest, s.data = c :: rest := by
    cases hd : s.data with
    | nil => rw [hd] at hlen; simp at hlen
    | cons c r => exact ⟨c, r, rfl⟩
  have hc0 : c ≠ '0' := by
    rw [hcs] at hhead
    simpa using hhead
  have hclean : cleanHexOf s = s := cleanHexOf_no_strip hcs hc0
  rw [hexToString, hclean, if_pos]
  refine ⟨hlen, testAllHex_true (by rw [hcs]; simp) ?_⟩
  intro x hx
  exact isHexDigitChar_of_lower (hhex x hx)

theorem hexToString_nonkey {b : List Nat} (hb : ∀ x ∈ b, x < 256)
    (hne : b ≠ []) (hhead : 16 ≤ b.headI) (hlen : b.length ≠ 32) :
    hexToString ⟨bytesToHexChars b⟩
      = (if jsStartsWith ⟨utf8Decode b⟩ encMarker then (⟨utf8Decode b⟩ : String)
        else if testLowerOrSpace ⟨utf8Decode b⟩
            ∧ 12 ≤ (splitOnChar ' ' (utf8Decode b)).length then ⟨utf8Decode b⟩
        else if 0 < (utf8Decode b).length ∧ testHasPrintable ⟨utf8Decode b⟩ then
          ⟨utf8Decode b⟩
        else ⟨bytesToHexChars b⟩) := by
  obtain ⟨b0, brest, hbs⟩ : ∃ b0 brest, b = b0 :: brest := by
    cases hd : b with
    | nil => exact absurd hd hne
    | cons x r => exact ⟨x, r, rfl⟩
  have hb0 : b0 < 256 := hb b0 (by rw [hbs]; simp)
  have hb0h : 16 ≤ b0 := by
    rw [hbs] at hhead
    simpa using hhead
  have hdata : (⟨bytesToHexChars b⟩ : String).data
      = toHexDigit (b0 / 16 % 16) :: toHexDigit (b0 % 16) :: bytesToHexChars brest := by
    rw [hbs]
    rfl
  have hne0 : toHexDigit (b0 / 16 % 16) ≠ '0' :=
    toHexDigit_ne_zero (by omega) (by omega)
  have hclean : cleanHexOf ⟨bytesToHexChars b⟩ = ⟨bytesToHexChars b⟩ :=
    cleanHexOf_no_strip hdata hne0
  have hlen64 : ¬((cleanHexOf ⟨bytesToHexChars b⟩).data.length = 64
      ∧ testAllHex (cleanHexOf ⟨bytesToHexChars b⟩)) := by
    rw [hclean]
    intro hcon
    have h1 : (bytesToHexChars b).length = 64 := hcon.1
    rw [bytesToHexChars_length] at h1
    omega
  have hdec : decodedOf ⟨bytesToHexChars b⟩ = ⟨utf8Decode b⟩ := by
    rw [decodedOf, hclean]
    show (⟨utf8Decode (hexPairsToBytes (bytesToHexChars b))⟩ : String) = _
    rw [hexPairsToBytes_bytesToHexChars b hb]
  rw [hexToString, if_neg hlen64, hdec, hclean]


/-! ### Round trip through createShares and restoreSecret -/

/-- A 64-digit lowercase-hex key whose first digit is nonzero. -/
def IsLowerHexKey (s : String) : Prop :=
  s.data.length = 64 ∧ (∀ c ∈ s.data, IsLowerHexChar c) ∧ s.data.headI ≠ '0'

/-- A lowercase passphrase: nonempty, letters `a`..`z` (97..122) and
spaces only, splitting on a single space into at least 12 words. -/
def IsPassphrase12 (s : String) : Prop :=
  s.data ≠ [] ∧ (∀ c ∈ s.data, (97 ≤ c.toNat ∧ c.toNat ≤ 122) ∨ c = ' ')
    ∧ 12 ≤ (splitOnChar ' ' s.data).length

theorem createShares_nopw_ok (S : String) (n t : Nat)
    (ht : 2 ≤ t) (htn : t ≤ n) (hn : n ≤ 255) (salts : Nat → Nat)
    (coeffs : Nat → Nat → GF) :
    createShares S n t none salts coeffs
      = .ok ((List.range n).map fun j =>
          mkShareToken (j + 1)
            (sharePayload (hexPairsToBytes (stringToHex S).data) t coeffs
              (gfByte (j + 1)))) := by
  rw [createShares, if_neg (by omega), if_neg (by omega), if_neg (by omega)]
  have hpw : pwTruthy none = false := rfl
  simp only [hpw, Bool.false_eq_true, if_false]
  rw [secretsShare_ok _ n t coeffs ht htn hn]
  rfl

theorem restoreBody_nopw (shares : List String) :
    restoreBody shares none
      = Except.bind (secretsCombine shares) fun hex => .ok (hexToString hex) := rfl

theorem restoreSecret_nopw_ok {shares : List String} {hex : String}
    (hlen : 2 ≤ shares.length) (hcomb : secretsCombine shares = .ok hex) :
    restoreSecret shares none = .ok (hexToString hex) := by
  rw [restoreSecret, if_neg (by omega), restoreBody_nopw, hcomb]
  rfl

theorem hexToString_stringToHex_passphrase {S : String}
    (hP : IsPassphrase12 S) (h32 : S.data.length ≠ 32) :
    hexToString ⟨bytesToHexChars (utf8Encode S.data)⟩ = S := by
  obtain ⟨hne, hchars, hwords⟩ := hP
  have hascii : ∀ c ∈ S.data, c.toNat < 128 := by
    intro c hc
    rcases hchars c hc with h | h
    · omega
    · rw [h]
      simp
  have hmap : utf8Encode S.data = S.data.map Char.toNat :=
    utf8Encode_ascii hascii
  obtain ⟨c, rest, hcs⟩ : ∃ c rest, S.data = c :: rest := by
    cases hd : S.data with
    | nil => exact absurd hd hne
    | cons c r => exact ⟨c, r, rfl⟩
  have hc32 : 32 ≤ c.toNat := by
    rcases hchars c (by rw [hcs]; simp) with h | h
    · omega
    · rw [h]
      simp
  have hnk := hexToString_nonkey (b := utf8Encode S.data)
    (utf8Encode_lt S.data) (utf8Encode_ne_nil hne)
    (by
      rw [hmap, hcs]
      show 16 ≤ (Char.toNat c :: List.map Char.toNat rest).headI
      simp only [List.headI]
      omega)
    (by rw [hmap, List.length_map]; exact h32)
  rw [hnk, utf8Decode_encode, string_eta]
  have hnotenc : jsStartsWith S encMarker = false := by
    have hcol : ∀ x ∈ S.data, x.toNat ≠ 58 := by
      intro x hx
      rcases hchars x hx with h | h
      · omega
      · rw [h]
        simp
    exact not_isEncrypted_of_no_colon hcol
  rw [hnotenc]
  simp only [Bool.false_eq_true, if_false]
  rw [if_pos]
  constructor
  · rw [testLowerOrSpace]
    simp only [Bool.and_eq_true, Bool.not_eq_true', List.all_eq_true]
    constructor
    · cases h2 : S.data.isEmpty
      · rfl
      · exact absurd (List.isEmpty_iff.mp h2) hne
    · intro x hx
      rcases hchars x hx with h | h
      · simp [h]
      · rw [h]
        simp [jsIsSpaceChar]
  · exact hwords

theorem roundtrip_core (S : String)
    (hS : IsLowerHexKey S ∨ (IsPassphrase12 S ∧ S.data.length ≠ 32))
    (n t : Nat) (ht : 2 ≤ t) (htn : t ≤ n) (hn : n ≤ 255)
    (salts : Nat → Nat) (coeffs : Nat → Nat → GF) (tokens : List String)
    (hc : createShares S n t none salts coeffs = .ok tokens)
    (idxs : List Nat) (hlen : idxs.length = t) (hnd : idxs.Nodup)
    (hmem : ∀ i ∈ idxs, i < n) :
    restoreSecret (idxs.map fun i => tokens.getD i "") none = .ok S := by
  rw [createShares_nopw_ok S n t ht htn hn salts coeffs] at hc
  have htokens : tokens = (List.range n).map fun j =>
      mkShareToken (j + 1)
        (sharePayload (hexPairsToBytes (stringToHex S).data) t coeffs
          (gfByte (j + 1))) := by
    cases hc
    rfl
  have hhex : (∀ c ∈ (stringToHex S).data, IsLowerHexChar c)
      ∧ (stringToHex S).data.length % 2 = 0
      ∧ hexToString (stringToHex S) = S := by
    rcases hS with hKey | ⟨hP, h32⟩
    · obtain ⟨hlen64, hlower, hhead⟩ := hKey
      have hne : S.data ≠ [] := by
        intro hcon
        rw [hcon] at hlen64
        simp at hlen64
      have hta : testAllHex S = true :=
        testAllHex_true hne fun c hc => isHexDigitChar_of_lower (hlower c hc)
      have hsx : stringToHex S = S := stringToHex_hex_even hta (by omega)
      rw [hsx]
      exact ⟨hlower, by omega, hexToString_key hlen64 hlower hhead⟩
    · obtain ⟨hne, hchars, hwords⟩ := hP
      have hspace : (' ' : Char) ∈ S.data :=
        count_pos_of_split_ge (by omega) hwords
      have hta : testAllHex S = false :=
        testAllHex_false_of_mem hspace isHexDigitChar_space
      have hsx : stringToHex S = ⟨bytesToHexChars (utf8Encode S.data)⟩ :=
        stringToHex_utf8 hta
      rw [hsx]
      refine ⟨bytesToHexChars_lower _, ?_, ?_⟩
      · show (bytesToHexChars (utf8Encode S.data)).length % 2 = 0
        rw [bytesToHexChars_length]
        omega
      · exact hexToString_stringToHex_passphrase ⟨hne, hchars, hwords⟩ h32
  have hcomb : secretsCombine (idxs.map fun i => tokens.getD i "")
      = .ok (stringToHex S) := by
    apply secretsCombine_share (stringToHex S) hhex.1 hhex.2.1 n t ht htn hn coeffs
      tokens _ idxs hlen hnd hmem
    rw [htokens, secretsShare_ok _ n t coeffs ht htn hn]
  have hsel : 2 ≤ (idxs.map fun i => tokens.getD i "").length := by
    rw [List.length_map]
    omega
  rw [restoreSecret_nopw_ok hsel hcomb, hhex.2.2]


theorem utf8Encode_cons_ascii {c : Char} (h : c.toNat < 128) (r : List Char) :
    utf8Encode (c :: r) = c.toNat :: utf8Encode r := by
  rw [utf8Encode, utf8EncodeChar_ascii h, List.singleton_append]

theorem utf8Encode_length_ge (cs : List Char) :
    cs.length ≤ (utf8Encode cs).length := by
  induction cs with
  | nil => simp
  | cons c cs ih =>
      rw [utf8Encode, List.length_append]
      have h1 : 1 ≤ (utf8EncodeChar c).length := by
        cases he : utf8EncodeChar c with
        | nil => exact absurd he (utf8EncodeChar_ne_nil c)
        | cons x l => simp
      simp only [List.length_cons]
      omega

/-! ### The password layer end to end -/

theorem pwTruthy_some {pw : String} (h : pw ≠ "") : pwTruthy (some pw) = true := by
  rw [pwTruthy, pwString]
  cases he : pw.isEmpty
  · rfl
  · exfalso
    exact h ((String.isEmpty_iff pw).mp he)

theorem string_ne_nil_data {s : String} (h : s ≠ "") : s.data ≠ [] := by
  intro hc
  apply h
  rw [← string_eta s, hc]

theorem except_bind_ok {α β : Type} (x : α) (f : α → Except String β) :
    Except.bind (Except.ok x) f = f x := rfl

theorem encrypt_data (text password : String) (salt : Nat) :
    (encrypt text password salt).data
      = encMarker.data ++ (cipherEncode salt password text).data := rfl

theorem decrypt_encrypt_clean (text password pw2 : String) (salt : Nat) :
    decrypt (encrypt text password salt) pw2
      = match cipherDecode (cipherEncode salt password text) pw2 with
        | some result =>
            if result.data.isEmpty then .error decryptFailMsg else .ok result
        | none => .error decryptFailMsg := by
  rw [decrypt]
  have hsw : jsStartsWith (encrypt text password salt) encMarker = true := by
    rw [jsStartsWith, encrypt_data]
    exact isPrefixOf_append _ _
  rw [hsw]
  have hdrop : (encrypt text password salt).data.drop 10
      = (cipherEncode salt password text).data := by
    rw [encrypt_data]
    have h10 : (10 : Nat) = encMarker.data.length := rfl
    rw [h10, List.drop_left]
  simp only [if_true, hdrop, string_eta]

theorem decrypt_encrypt_ok {text : String} (ht : text ≠ "") (password : String)
    (salt : Nat) : decrypt (encrypt text password salt) password = .ok text := by
  rw [decrypt_encrypt_clean, cipherDecode_encode]
  have hd : text.data.isEmpty = false := by
    cases hc : text.data.isEmpty
    · rfl
    · exact absurd (List.isEmpty_iff.mp hc) (string_ne_nil_data ht)
  simp [hd]

theorem decrypt_encrypt_wrong {pw2 password : String} (hne : pw2 ≠ password)
    (text : String) (salt : Nat) :
    decrypt (encrypt text password salt) pw2 = .error decryptFailMsg := by
  rw [decrypt_encrypt_clean, cipherDecode_encode_wrong _ _ _ hne]

theorem encryptShares_length (shares : List String) (pw : String)
    (salts : Nat → Nat) : (encryptShares shares pw salts).length = shares.length := by
  simp [encryptShares]

theorem encryptShares_getD {shares : List String} {i : Nat}
    (h : i < shares.length) (pw : String) (salts : Nat → Nat) :
    (encryptShares shares pw salts).getD i ""
      = encrypt (shares.getD i "") pw (salts i) := by
  rw [encryptShares, range_map_getD h]

theorem mapM_except_ok_map {α β γ : Type} (f : β → Except String γ) (g : α → β)
    (h : α → γ) (l : List α) (hp : ∀ x ∈ l, f (g x) = .ok (h x)) :
    (l.map g).mapM f = .ok (l.map h) := by
  induction l with
  | nil => rfl
  | cons a l ih =>
      rw [List.map_cons, List.map_cons, List.mapM_cons, hp a (by simp),
        ih (fun x hx => hp x (by simp [hx]))]
      rfl

theorem mapM_except_error_head {α β : Type} (f : α → Except String β) {a : α}
    {e : String} (l : List α) (h : f a = .error e) :
    (a :: l).mapM f = (.error e : Except String (List β)) := by
  rw [List.mapM_cons, h]
  rfl

theorem mapM_option_none_head {α β : Type} (f : α → Option β) {a : α}
    (l : List α) (h : f a = none) : (a :: l).mapM f = none := by
  rw [List.mapM_cons, h]
  rfl

theorem restoreBody_eq (shares : List String) (pw : String) :
    restoreBody shares (some pw)
      = Except.bind
          (if pwTruthy (some pw) && isEncrypted shares.headI then
            decryptShares shares pw
          else .ok shares) fun s2 =>
          Except.bind (secretsCombine s2) fun hex =>
            if pwTruthy (some pw) && isEncrypted (hexToString hex) then
              decrypt (hexToString hex) pw
            else .ok (hexToString hex) := by
  unfold restoreBody
  cases hc : pwTruthy (some pw) && isEncrypted shares.headI
  · simp only [hc, Bool.false_eq_true, if_false]
    rfl
  · simp only [hc, if_true]
    rfl

theorem restoreSecret_eq {shares : List String} (pw : Option String)
    (h : 2 ≤ shares.length) :
    restoreSecret shares pw
      = match restoreBody shares pw with
        | .ok v => .ok v
        | .error m => .error (wrapRestoreMsg m) := by
  rw [restoreSecret, if_neg (by omega)]

theorem createShares_pw_ok (S pw : String) (hpw : pw ≠ "") (n t : Nat)
    (ht : 2 ≤ t) (htn : t ≤ n) (hn : n ≤ 255) (salts : Nat → Nat)
    (coeffs : Nat → Nat → GF) :
    createShares S n t (some pw) salts coeffs
      = .ok (encryptShares
          ((List.range n).map fun j =>
            mkShareToken (j + 1)
              (sharePayload
                (hexPairsToBytes (stringToHex (encrypt S pw (salts 0))).data) t
                coeffs (gfByte (j + 1))))
          pw (fun i => salts (i + 1))) := by
  rw [createShares, if_neg (by omega), if_neg (by omega), if_neg (by omega)]
  have hp := pwTruthy_some hpw
  simp only [hp, if_true, pwString]
  rw [secretsShare_ok _ n t coeffs ht htn hn]
  rfl

theorem colon_mem_encrypt (text password : String) (salt : Nat) :
    (':' : Char) ∈ (encrypt text password salt).data := by
  rw [encrypt_data]
  apply List.mem_append.mpr
  left
  decide

theorem encrypt_head (text password : String) (salt : Nat) :
    ∃ tail, (encrypt text password salt).data = 'e' :: tail := by
  rw [encrypt_data]
  exact ⟨_, rfl⟩

theorem encrypt_data_length (text password : String) (salt : Nat) :
    43 ≤ (encrypt text password salt).data.length := by
  rw [encrypt_data, List.length_append]
  have h1 : encMarker.data.length = 10 := rfl
  have h2 : (cipherEncode salt password text).data.length
      = 32 + (bytesToHexChars (utf8Encode password.data)).length
          + (1 + text.data.length) := by
    rw [cipherEncode_data, List.length_append, List.length_append,
      saltHexChars_length]
    simp
    omega
  omega

theorem hexToString_encrypt_token (text password : String) (salt : Nat) :
    hexToString ⟨bytesToHexChars (utf8Encode (encrypt text password salt).data)⟩
      = encrypt text password salt := by
  obtain ⟨tail, htail⟩ := encrypt_head text password salt
  have hlen := encrypt_data_length text password salt
  have hnk := hexToString_nonkey (b := utf8Encode (encrypt text password salt).data)
    (utf8Encode_lt _)
    (utf8Encode_ne_nil (by rw [htail]; simp))
    (by
      rw [htail, utf8Encode_cons_ascii (by simp) tail]
      simp only [List.headI]
      simp)
    (by
      have hge := utf8Encode_length_ge (encrypt text password salt).data
      omega)
  rw [hnk, utf8Decode_encode, string_eta]
  have hsw : jsStartsWith (encrypt text password salt) encMarker = true := by
    rw [jsStartsWith, encrypt_data]
    exact isPrefixOf_append _ _
  rw [hsw]
  simp


theorem mkShareToken_data (id : Nat) (payload : List Nat) :
    (mkShareToken id payload).data
      = '8' :: toHexDigit (id / 16 % 16) :: toHexDigit (id % 16)
          :: bytesToHexChars payload := rfl

theorem empty_string_data : ("" : String).data = [] := rfl

theorem mkShareToken_ne_empty (id : Nat) (payload : List Nat) :
    mkShareToken id payload ≠ "" := by
  intro hcon
  have h2 := congrArg String.data hcon
  rw [mkShareToken_data, empty_string_data] at h2
  cases h2

theorem parseShareToken_encrypt (text password : String) (salt : Nat) :
    parseShareToken (encrypt text password salt) = none := by
  have hdata : (encrypt text password salt).data
      = 'e' :: 'n' :: 'c' :: ('r' :: 'y' :: 'p' :: 't' :: 'e' :: 'd' :: ':'
          :: (cipherEncode salt password text).data) := rfl
  rw [parseShareToken, hdata]
  rfl

theorem roundtrip_pw_core (S pw : String) (hS : S ≠ "") (hpw : pw ≠ "")
    (n t : Nat) (ht : 2 ≤ t) (htn : t ≤ n) (hn : n ≤ 255)
    (salts : Nat → Nat) (coeffs : Nat → Nat → GF) (tokens : List String)
    (hc : createShares S n t (some pw) salts coeffs = .ok tokens)
    (idxs : List Nat) (hlen : idxs.length = t) (hnd : idxs.Nodup)
    (hmem : ∀ i ∈ idxs, i < n) :
    restoreSecret (idxs.map fun i => tokens.getD i "") (some pw) = .ok S := by
  rw [createShares_pw_ok S pw hpw n t ht htn hn salts coeffs] at hc
  set T := encrypt S pw (salts 0) with hT
  set H := stringToHex T with hH
  set ptoks := (List.range n).map fun j =>
    mkShareToken (j + 1)
      (sharePayload (hexPairsToBytes H.data) t coeffs (gfByte (j + 1))) with hptoks
  have htokens : tokens = encryptShares ptoks pw (fun i => salts (i + 1)) := by
    cases hc
    rfl
  have hta : testAllHex T = false :=
    testAllHex_false_of_mem (colon_mem_encrypt S pw (salts 0)) isHexDigitChar_colon
  have hHval : H = ⟨bytesToHexChars (utf8Encode T.data)⟩ := stringToHex_utf8 hta
  have hHlower : ∀ c ∈ H.data, IsLowerHexChar c := by
    rw [hHval]
    exact bytesToHexChars_lower _
  have hHeven : H.data.length % 2 = 0 := by
    rw [hHval]
    show (bytesToHexChars (utf8Encode T.data)).length % 2 = 0
    rw [bytesToHexChars_length]
    omega
  have hplen : ptoks.length = n := by
    rw [hptoks]
    simp
  have hselform : (idxs.map fun i => tokens.getD i "")
      = idxs.map fun i => encrypt (ptoks.getD i "") pw (salts (i + 1)) := by
    apply List.map_congr_left
    intro i hi
    rw [htokens, encryptShares_getD (by rw [hplen]; exact hmem i hi)]
  have hptokne : ∀ i ∈ idxs, ptoks.getD i "" ≠ "" := by
    intro i hi
    rw [hptoks, range_map_getD (hmem i hi)]
    exact mkShareToken_ne_empty _ _
  have hdec : decryptShares (idxs.map fun i =>
        encrypt (ptoks.getD i "") pw (salts (i + 1))) pw
      = .ok (idxs.map fun i => ptoks.getD i "") := by
    rw [decryptShares]
    apply mapM_except_ok_map
    intro i hi
    exact decrypt_encrypt_ok (hptokne i hi) pw _
  have hcomb : secretsCombine (idxs.map fun i => ptoks.getD i "") = .ok H := by
    apply secretsCombine_share H hHlower hHeven n t ht htn hn coeffs ptoks _ idxs
      hlen hnd hmem
    rw [hptoks, secretsShare_ok _ n t coeffs ht htn hn]
  obtain ⟨i0, irest, hidx⟩ : ∃ i0 irest, idxs = i0 :: irest := by
    cases hd : idxs with
    | nil =>
        rw [hd] at hlen
        simp at hlen
        omega
    | cons a l => exact ⟨a, l, rfl⟩
  have henc : isEncrypted ((idxs.map fun i => tokens.getD i "").headI) = true := by
    rw [hselform, hidx]
    exact isEncrypted_encrypt _ _ _
  have hlen2 : 2 ≤ (idxs.map fun i => tokens.getD i "").length := by
    rw [List.length_map]
    omega
  rw [restoreSecret_eq (some pw) hlen2, restoreBody_eq]
  rw [pwTruthy_some hpw, henc]
  simp only [Bool.and_self, if_true]
  rw [hselform, hdec, except_bind_ok, hcomb, except_bind_ok]
  have hhts : hexToString H = T := by
    rw [hHval, hT]
    exact hexToString_encrypt_token S pw (salts 0)
  rw [hhts, hT]
  rw [isEncrypted_encrypt]
  simp only [Bool.and_self, Bool.true_and, if_true]
  rw [decrypt_encrypt_ok hS pw (salts 0)]

theorem restore_wrong_pw_core (S pw : String) (hpw : pw ≠ "")
    (n t : Nat) (ht : 2 ≤ t) (htn : t ≤ n) (hn : n ≤ 255)
    (salts : Nat → Nat) (coeffs : Nat → Nat → GF) (tokens : List String)
    (hc : createShares S n t (some pw) salts coeffs = .ok tokens)
    (idxs : List Nat) (hlen : idxs.length = t) (hnd : idxs.Nodup)
    (hmem : ∀ i ∈ idxs, i < n) (pw2 : String) (hne : pw2 ≠ pw) :
    ∃ e, restoreSecret (idxs.map fun i => tokens.getD i "") (some pw2)
      = .error e := by
  rw [createShares_pw_ok S pw hpw n t ht htn hn salts coeffs] at hc
  set T := encrypt S pw (salts 0) with hT
  set H := stringToHex T with hH
  set ptoks := (List.range n).map fun j =>
    mkShareToken (j + 1)
      (sharePayload (hexPairsToBytes H.data) t coeffs (gfByte (j + 1))) with hptoks
  have htokens : tokens = encryptShares ptoks pw (fun i => salts (i + 1)) := by
    cases hc
    rfl
  have hplen : ptoks.length = n := by
    rw [hptoks]
    simp
  have hselform : (idxs.map fun i => tokens.getD i "")
      = idxs.map fun i => encrypt (ptoks.getD i "") pw (salts (i + 1)) := by
    apply List.map_congr_left
    intro i hi
    rw [htokens, encryptShares_getD (by rw [hplen]; exact hmem i hi)]
  obtain ⟨i0, irest, hidx⟩ : ∃ i0 irest, idxs = i0 :: irest := by
    cases hd : idxs with
    | nil =>
        rw [hd] at hlen
        simp at hlen
        omega
    | cons a l => exact ⟨a, l, rfl⟩
  have hlen2 : 2 ≤ (idxs.map fun i => tokens.getD i "").length := by
    rw [List.length_map]
    omega
  by_cases h2 : pw2 = ""
  · subst h2
    rw [restoreSecret_eq (some "") hlen2, restoreBody_eq]
    have hcond : (pwTruthy (some "") && isEncrypted
        ((idxs.map fun i => tokens.getD i "").headI)) = false := rfl
    rw [hcond]
    simp only [Bool.false_eq_true, if_false, except_bind_ok]
    have hcombbad : secretsCombine (idxs.map fun i => tokens.getD i "")
        = .error errMalformedShare := by
      rw [hselform, hidx, List.map_cons, secretsCombine,
        mapM_option_none_head _ _ (parseShareToken_encrypt _ _ _)]
    rw [hcombbad]
    exact ⟨_, rfl⟩
  · rw [restoreSecret_eq (some pw2) hlen2, restoreBody_eq]
    have henc : isEncrypted ((idxs.map fun i => tokens.getD i "").headI)
        = true := by
      rw [hselform, hidx]
      exact isEncrypted_encrypt _ _ _
    rw [pwTruthy_some h2, henc]
    simp only [Bool.and_self, if_true]
    have hdecbad : decryptShares (idxs.map fun i => tokens.getD i "") pw2
        = .error decryptFailMsg := by
      rw [hselform, hidx, List.map_cons, decryptShares,
        mapM_except_error_head (fun share => decrypt share pw2) _
          (decrypt_encrypt_wrong hne _ _)]
    rw [hdecbad]
    exact ⟨_, rfl⟩


/-! ### Concrete inputs used by the claim counterexamples and witnesses -/

/-- A 64-hex-digit key whose first digit is the zero digit. -/
def c1secret : String := "0aaaaaaaaaaaaaaaaaaaaaaaaaaaaaaaaaaaaaaaaaaaaaaaaaaaaaaaaaaaaaaa"

/-- What the decoder actually returns for `c1secret` after the round trip. -/
def c1restored : String := "aaaaaaaaaaaaaaaaaaaaaaaaaaaaaaaaaaaaaaaaaaaaaaaaaaaaaaaaaaaaaaa"

/-- The share tokens `createShares` emits for `c1secret` with `n = t = 2`
and all polynomial coefficients zero. -/
def c1tokens : List String := ["801" ++ c1secret, "802" ++ c1secret]

/-- A 64-hex-digit key whose first digit is nonzero. -/
def c1wsecret : String := "abababababababababababababababababababababababababababababababab"

/-- The share tokens `createShares` emits for `c1wsecret` with `n = t = 2`
and all polynomial coefficients zero. -/
def c1wtokens : List String := ["801" ++ c1wsecret, "802" ++ c1wsecret]

/-- A 64-hex-digit key written in uppercase. -/
def c1upsecret : String := "AAAAAAAAAAAAAAAAAAAAAAAAAAAAAAAAAAAAAAAAAAAAAAAAAAAAAAAAAAAAAAAA"

/-- What the decoder returns for `c1upsecret` after the round trip: the
same key re-rendered in lowercase. -/
def c1uprestored : String := "aaaaaaaaaaaaaaaaaaaaaaaaaaaaaaaaaaaaaaaaaaaaaaaaaaaaaaaaaaaaaaaa"

/-- The share tokens `createShares` emits for `c1upsecret` with `n = t = 2`
and all polynomial coefficients zero. -/
def c1uptokens : List String := ["801" ++ c1uprestored, "802" ++ c1uprestored]

/-- A lowercase passphrase of 12 space-separated words that is exactly
32 characters long. -/
def c1passphrase : String := "aaaaaaaaaa a a a a a a a a a a a"

/-- What the decoder returns for `c1passphrase` after the round trip: the
64-digit hex encoding of its UTF-8 bytes, which the decoder keeps as a
key. -/
def c1prestored : String := "6161616161616161616120612061206120612061206120612061206120612061"

/-- The share tokens `createShares` emits for `c1passphrase` with
`n = t = 2` and all polynomial coefficients zero. -/
def c1ptokens : List String := ["801" ++ c1prestored, "802" ++ c1prestored]

/-- The share tokens `createShares` emits for secret `"s"`, password `"p"`,
`n = t = 2`, zero entropy. -/
def c3tokens : List String :=
  encryptShares ((List.range 2).map fun j =>
      mkShareToken (j + 1)
        (sharePayload (hexPairsToBytes (stringToHex (encrypt "s" "p" 0)).data) 2
          (fun _ _ => 0) (gfByte (j + 1)))) "p" (fun _ => 0)

/-- A ciphertext without the reserved marker. -/
def c4token : String := cipherEncode 0 "p" "hi"

/-- A hex string with one leading zero byte followed by a zero digit: after
stripping the zero byte, 64 hex digits remain. -/
def c5hex : String := "000a01010101010101010101010101010101010101010101010101010101010101"

/-- A share set whose combination yields `c5hex`. -/
def c5shares : List String := ["801" ++ c5hex, "802" ++ c5hex]

/-- A 65-digit hex string: one leading zero digit, then 64 nonzero digits. -/
def c5wkey : String := "01111111111111111111111111111111111111111111111111111111111111111"

/-! ### Remaining helper lemmas for the claims -/

theorem testAllHex_eq_true_iff {s : String} :
    testAllHex s = true
      ↔ s.data ≠ [] ∧ ∀ c ∈ s.data, isHexDigitChar c = true := by
  constructor
  · intro h
    rw [testAllHex] at h
    simp only [Bool.and_eq_true, Bool.not_eq_true', List.all_eq_true] at h
    refine ⟨?_, fun c hc => h.2 c hc⟩
    intro hcon
    rw [hcon] at h
    simp at h
  · intro h
    exact testAllHex_true h.1 h.2

theorem createShares_eval (S : String) (pw : Option String) (salts : Nat → Nat)
    (coeffs : Nat → Nat → GF) {n t : Nat} (h1 : ¬ t > n) (h2 : ¬ t < 2)
    (h3 : ¬ n < 2) :
    createShares S n t pw salts coeffs
      = match
          (secretsShare
            (stringToHex
              (if pwTruthy pw then encrypt S (pwString pw) (salts 0) else S))
            n t coeffs).map
            (fun shares =>
              if pwTruthy pw then
                encryptShares shares (pwString pw) (fun i => salts (i + 1))
              else shares)
        with
        | .ok v => .ok v
        | .error m => .error (wrapCreateMsg m) := by
  rw [createShares, if_neg h1, if_neg h2, if_neg h3]

theorem secretsShare_cap {n : Nat} (hn : 255 < n) (h : String) (t : Nat)
    (coeffs : Nat → Nat → GF) :
    secretsShare h n t coeffs = .error errFieldCap := by
  rw [secretsShare, if_pos (Or.inr hn)]

instance (c : Char) : Decidable (IsLowerHexChar c) :=
  decidable_of_iff
    ((48 ≤ c.toNat ∧ c.toNat ≤ 57) ∨ (97 ≤ c.toNat ∧ c.toNat ≤ 102)) Iff.rfl

instance (s : String) : Decidable (IsLowerHexKey s) :=
  decidable_of_iff
    (s.data.length = 64 ∧ (∀ c ∈ s.data, IsLowerHexChar c) ∧ s.data.headI ≠ '0')
    Iff.rfl

instance (s : String) : Decidable (IsPassphrase12 s) :=
  decidable_of_iff
    (s.data ≠ [] ∧ (∀ c ∈ s.data, (97 ≤ c.toNat ∧ c.toNat ≤ 122) ∨ c = ' ')
      ∧ 12 ≤ (splitOnChar ' ' s.data).length)
    Iff.rfl

theorem isPrefixOf_enc_hex (bs : List Nat) (hne : bs ≠ []) (tail : List Char) :
    List.isPrefixOf encMarker.data (bytesToHexChars bs ++ tail) = false := by
  cases bs with
  | nil => exact absurd rfl hne
  | cons b bs =>
      have hm : encMarker.data
          = 'e' :: 'n' :: 'c' :: 'r' :: 'y' :: 'p' :: 't' :: 'e' :: 'd' :: ':' :: [] :=
        rfl
      rw [hm, bytesToHexChars]
      have hd2 : ('n' == toHexDigit (b % 16)) = false := by
        rw [beq_eq_false_iff_ne]
        intro hcon
        have hl := toHexDigit_lower (n := b % 16) (Nat.mod_lt _ (by omega))
        rw [← hcon] at hl
        exact absurd hl (by decide)
      simp [List.isPrefixOf, hd2]

theorem cipherEncode_not_marked (salt : Nat) (password text : String) :
    jsStartsWith (cipherEncode salt password text) encMarker = false := by
  rw [jsStartsWith, cipherEncode_data, List.append_assoc, saltHexChars]
  exact isPrefixOf_enc_hex _ (by simp) _

theorem decrypt_eval_unmarked {s : String}
    (h : jsStartsWith s encMarker = false) (p : String) :
    decrypt s p
      = match cipherDecode s p with
        | some result =>
            if result.data.isEmpty then .error decryptFailMsg else .ok result
        | none => .error decryptFailMsg := by
  rw [decrypt, h]
  simp only [Bool.false_eq_true, if_false]

theorem decrypt_marked (s p : String) :
    decrypt (encMarker ++ s) p
      = match cipherDecode s p with
        | some result =>
            if result.data.isEmpty then .error decryptFailMsg else .ok result
        | none => .error decryptFailMsg := by
  rw [decrypt]
  have hsw : jsStartsWith (encMarker ++ s) encMarker = true := by
    rw [jsStartsWith]
    have hd : (encMarker ++ s).data = encMarker.data ++ s.data := rfl
    rw [hd]
    exact isPrefixOf_append _ _
  rw [hsw]
  have hdrop : (encMarker ++ s).data.drop 10 = s.data := by
    have hd : (encMarker ++ s).data = encMarker.data ++ s.data := rfl
    have h10 : (10 : Nat) = encMarker.data.length := rfl
    rw [hd, h10, List.drop_left]
  simp only [if_true, hdrop, string_eta]

/-! ### The claims -/

/-- Claim C1 (corrected): the round trip `restoreSecret ∘ createShares`
returns the secret exactly, for any `t` of the `n` tokens, when the secret
is a 64-digit lowercase hex key whose first digit is nonzero, or a
lowercase passphrase of at least 12 space-separated words whose length is
not 32 characters.  (The counterexample shows each restriction is needed:
a key with a leading zero digit comes back with the zero stripped, an
uppercase key comes back lowercased, and a 32-character passphrase comes
back as its 64-digit hex encoding.) -/
theorem claim1_roundtrip (S : String)
    (hS : IsLowerHexKey S ∨ (IsPassphrase12 S ∧ S.data.length ≠ 32))
    (n t : Nat) (ht : 2 ≤ t) (htn : t ≤ n) (hn : n ≤ 255)
    (salts : Nat → Nat) (coeffs : Nat → Nat → GF) (tokens : List String)
    (hc : createShares S n t none salts coeffs = .ok tokens)
    (idxs : List Nat) (hlen : idxs.length = t) (hnd : idxs.Nodup)
    (hmem : ∀ i ∈ idxs, i < n) :
    restoreSecret (idxs.map fun i => tokens.getD i "") none = .ok S :=
  roundtrip_core S hS n t ht htn hn salts coeffs tokens hc idxs hlen hnd hmem

/-- Claim C1, witness: the round trip at a concrete 64-hex-digit key,
`n = t = 2`. -/
theorem claim1_witness :
    restoreSecret ([0, 1].map fun i => c1wtokens.getD i "") none
      = .ok c1wsecret :=
  claim1_roundtrip c1wsecret (Or.inl (by decide)) 2 2 (by decide) (by decide)
    (by decide) (fun _ => 0) (fun _ _ => 0) c1wtokens (by rfl) [0, 1] rfl
    (by decide) (by decide)

/-- Claim C1, counterexample to the frozen statement, in three parts, one
per restriction of the amendment.  `c1secret` is a 64-hex-digit key with a
leading zero digit: restoring returns the key with that digit stripped.
`c1upsecret` is a 64-hex-digit key in uppercase: restoring returns it
lowercased (combine re-renders hex in lowercase).  `c1passphrase` is a
lowercase passphrase of 12 words that is 32 characters long: its hex
encoding is 64 digits, so the decoder misclassifies it as a key and
restoring returns the hex, not the passphrase.  Each `createShares` call
succeeds with `n = t = 2`, yet none of the three restores returns its
secret. -/
theorem claim1_cex :
    (testAllHex c1secret = true ∧ c1secret.data.length = 64
      ∧ createShares c1secret 2 2 none (fun _ => 0) (fun _ _ => 0) = .ok c1tokens
      ∧ restoreSecret c1tokens none = .ok c1restored
      ∧ c1restored ≠ c1secret)
    ∧ (testAllHex c1upsecret = true ∧ c1upsecret.data.length = 64
      ∧ createShares c1upsecret 2 2 none (fun _ => 0) (fun _ _ => 0)
          = .ok c1uptokens
      ∧ restoreSecret c1uptokens none = .ok c1uprestored
      ∧ c1uprestored ≠ c1upsecret)
    ∧ (IsPassphrase12 c1passphrase ∧ c1passphrase.data.length = 32
      ∧ createShares c1passphrase 2 2 none (fun _ => 0) (fun _ _ => 0)
          = .ok c1ptokens
      ∧ restoreSecret c1ptokens none = .ok c1prestored
      ∧ c1prestored ≠ c1passphrase) :=
  ⟨⟨by decide, by decide, by rfl, by rfl, by decide⟩,
   ⟨by decide, by decide, by rfl, by rfl, by decide⟩,
   ⟨by decide, by decide, by rfl, by rfl, by decide⟩⟩

/-- Claim C2 (confirmed): `createShares` fails exactly when `t < 2`,
`n < 2`, `t > n`, or `n > 255`; for every valid pair no error is raised,
whatever the secret and password. -/
theorem claim2_validation (S : String) (pw : Option String)
    (salts : Nat → Nat) (coeffs : Nat → Nat → GF) (n t : Nat) :
    (∃ e, createShares S n t pw salts coeffs = .error e)
      ↔ t < 2 ∨ n < 2 ∨ n < t ∨ 255 < n := by
  by_cases h1 : t > n
  · exact iff_of_true ⟨errThresholdGT, by rw [createShares, if_pos h1]⟩ (by omega)
  by_cases h2 : t < 2
  · exact iff_of_true
      ⟨errThresholdMin, by rw [createShares, if_neg h1, if_pos h2]⟩ (by omega)
  by_cases h4 : 255 < n
  · refine iff_of_true ⟨wrapCreateMsg errFieldCap, ?_⟩ (by omega)
    rw [createShares_eval S pw salts coeffs h1 h2 (by omega),
      secretsShare_cap h4]
    rfl
  · refine iff_of_false ?_ (by omega)
    rintro ⟨e, he⟩
    rw [createShares_eval S pw salts coeffs h1 h2 (by omega),
      secretsShare_ok _ n t coeffs (by omega) (by omega) (by omega)] at he
    simp [Except.map] at he

/-- Claim C3 (corrected): for a nonempty secret and a nonempty password,
restoring any `t` of the `n` tokens with the same password returns the
secret, and restoring them with any other password fails.  (The empty
secret and the empty password break the frozen statement: see the
counterexample.) -/
theorem claim3_password (S pw : String) (hS : S ≠ "") (hpw : pw ≠ "")
    (n t : Nat) (ht : 2 ≤ t) (htn : t ≤ n) (hn : n ≤ 255)
    (salts : Nat → Nat) (coeffs : Nat → Nat → GF) (tokens : List String)
    (hc : createShares S n t (some pw) salts coeffs = .ok tokens)
    (idxs : List Nat) (hlen : idxs.length = t) (hnd : idxs.Nodup)
    (hmem : ∀ i ∈ idxs, i < n) :
    restoreSecret (idxs.map fun i => tokens.getD i "") (some pw) = .ok S
    ∧ ∀ pw2, pw2 ≠ pw → ∃ e,
        restoreSecret (idxs.map fun i => tokens.getD i "") (some pw2)
          = .error e :=
  ⟨roundtrip_pw_core S pw hS hpw n t ht htn hn salts coeffs tokens hc idxs
      hlen hnd hmem,
   fun pw2 hne => restore_wrong_pw_core S pw hpw n t ht htn hn salts coeffs
      tokens hc idxs hlen hnd hmem pw2 hne⟩

/-- Claim C3, witness: secret `"s"`, password `"p"`, `n = t = 2`. -/
theorem claim3_witness :
    restoreSecret ([0, 1].map fun i => c3tokens.getD i "") (some "p") = .ok "s"
    ∧ ∀ pw2, pw2 ≠ "p" → ∃ e,
        restoreSecret ([0, 1].map fun i => c3tokens.getD i "") (some pw2)
          = .error e :=
  claim3_password "s" "p" (by decide) (by decide) 2 2 (by decide) (by decide)
    (by decide) (fun _ => 0) (fun _ _ => 0) c3tokens (by rfl) [0, 1] rfl
    (by decide) (by decide)

/-- Claim C3, counterexample to the frozen statement: splitting the empty
secret with password `"a"` succeeds, but restoring with the same password
fails, because the final decryption of the empty plaintext is rejected. -/
theorem claim3_cex :
    (createShares "" 2 2 (some "a") (fun _ => 0) (fun _ _ => 0)).bind
        (fun toks => restoreSecret toks (some "a"))
      = .error (wrapRestoreMsg decryptFailMsg) := by rfl

/-- Claim C4 (corrected): `decrypt` does not reject unmarked tokens — the
marker is stripped when present and its absence changes nothing; decryption
of a token produced by `encrypt` fails exactly on a wrong password or an
empty plaintext, and otherwise returns the full plaintext. -/
theorem claim4_decrypt (text password pw2 : String) (salt : Nat) :
    decrypt (encrypt text password salt) pw2
        = decrypt (cipherEncode salt password text) pw2
    ∧ decrypt (encrypt text password salt) pw2
        = if pw2 = password ∧ text ≠ "" then .ok text
          else .error decryptFailMsg := by
  constructor
  · rw [decrypt_encrypt_clean,
      decrypt_eval_unmarked (cipherEncode_not_marked salt password text)]
  · by_cases hp : pw2 = password
    · subst hp
      by_cases htext : text = ""
      · subst htext
        rw [if_neg (fun hcon => hcon.2 rfl), decrypt_encrypt_clean,
          cipherDecode_encode]
        rfl
      · rw [if_pos ⟨rfl, htext⟩]
        exact decrypt_encrypt_ok htext pw2 salt
    · rw [if_neg (fun hcon => hp hcon.1)]
      exact decrypt_encrypt_wrong hp text salt

/-- Claim C4, counterexample to the frozen statement: a token without the
reserved marker is decrypted successfully rather than rejected. -/
theorem claim4_cex :
    isEncrypted c4token = false ∧ decrypt c4token "p" = .ok "hi" :=
  ⟨by decide, by rfl⟩

/-- Claim C5 (corrected): the decoder strips leading zero hex digits
(nibbles), not zero bytes; whenever the remainder after stripping is
exactly 64 hex digits it is returned unchanged without UTF-8 decoding. -/
theorem claim5_decoder (h : String)
    (h64 : (cleanHexOf h).data.length = 64)
    (hhex : testAllHex (cleanHexOf h) = true) :
    hexToString h = cleanHexOf h
    ∧ cleanHexOf h = ⟨h.data.dropWhile (· = '0')⟩ := by
  constructor
  · rw [hexToString, if_pos ⟨h64, hhex⟩]
  · rw [cleanHexOf, if_neg]
    intro hcon
    rw [cleanHexOf, if_pos hcon] at h64
    exact absurd h64 (by decide)

/-- Claim C5, witness: a 65-digit hex string whose leading zero digit is
stripped, leaving a 64-digit key that is returned unchanged. -/
theorem claim5_witness :
    hexToString c5wkey = cleanHexOf c5wkey
    ∧ cleanHexOf c5wkey = ⟨c5wkey.data.dropWhile (· = '0')⟩ :=
  claim5_decoder c5wkey (by decide) (by decide)

/-- Claim C5, counterexample to the frozen statement: `c5hex` is produced
by `secretsCombine`; stripping its one leading zero *byte* leaves exactly
64 hex digits, but the decoder does not return that 64-digit remainder —
it strips three zero digits and UTF-8-decodes what is left. -/
theorem claim5_cex :
    secretsCombine c5shares = .ok c5hex
    ∧ c5hex.data.take 2 = ['0', '0']
    ∧ (c5hex.data.drop 2).length = 64
    ∧ testAllHex ⟨c5hex.data.drop 2⟩ = true
    ∧ hexToString c5hex ≠ ⟨c5hex.data.drop 2⟩ :=
  ⟨by rfl, by decide, by decide, by decide, by decide⟩

/-- Claim C6 (confirmed): the canonical hex passed to splitting is the
input itself when the input is a nonempty string of hex digits of even
length, the input with one leading zero digit when it is such a string of
odd length, and the hex encoding of the input's UTF-8 bytes otherwise. -/
theorem claim6_encoder (s : String) :
    stringToHex s
      = if s.data ≠ [] ∧ ∀ c ∈ s.data, isHexDigitChar c = true then
          (if s.data.length % 2 = 0 then s else ⟨'0' :: s.data⟩)
        else ⟨bytesToHexChars (utf8Encode s.data)⟩ := by
  by_cases h : s.data ≠ [] ∧ ∀ c ∈ s.data, isHexDigitChar c = true
  · rw [if_pos h, stringToHex, if_pos (testAllHex_eq_true_iff.mpr h)]
    by_cases h2 : s.data.length % 2 = 0
    · rw [if_neg (by omega), if_pos h2]
    · rw [if_pos (by omega), if_neg h2]
  · rw [if_neg h, stringToHex,
      if_neg (fun hta => h (testAllHex_eq_true_iff.mp hta))]

/-- Claim C7 (confirmed): with fewer than 2 shares `restoreSecret` fails
with the insufficient-shares message, before anything else runs; with 2 or
more shares that message is never produced (every body error is wrapped
with a different message). -/
theorem claim7_min_shares (shares : List String) (pw : Option String) :
    (shares.length < 2 → restoreSecret shares pw = .error errSharesRequired)
    ∧ (2 ≤ shares.length →
        restoreSecret shares pw ≠ .error errSharesRequired) := by
  constructor
  · intro h
    rw [restoreSecret, if_pos h]
  · intro h hcon
    rw [restoreSecret, if_neg (by omega)] at hcon
    cases hb : restoreBody shares pw with
    | ok v =>
        rw [hb] at hcon
        cases hcon
    | error m =>
        rw [hb] at hcon
        injection hcon with h2
        exact absurd (show ('F' : Char) = 'A' from
          congrArg (fun s => s.data.headI) h2) (by decide)

/-- Claim C8 (confirmed): `restoreSecret` is a pure function of the share
list and the optional password — equal arguments give equal results; the
embedding is stateless, so no state survives between calls. -/
theorem claim8_deterministic (s1 s2 : List String) (p1 p2 : Option String)
    (hs : s1 = s2) (hp : p1 = p2) :
    restoreSecret s1 p1 = restoreSecret s2 p2 := by
  rw [hs, hp]

/-- Claim C8, witness: two identical invocations agree. -/
theorem claim8_witness :
    restoreSecret ["801ab", "802ab"] (some "p")
      = restoreSecret ["801ab", "802ab"] (some "p") :=
  claim8_deterministic ["801ab", "802ab"] ["801ab", "802ab"] (some "p")
    (some "p") rfl rfl

/-- Claim C9 (confirmed): when no truthy password is given, or the first
share does not carry the marker, no share is decrypted — the whole list
goes to combination unchanged (later marked shares included); decryption
of shares happens only when both conditions hold. -/
theorem claim9_gate (shares : List String) (pw : Option String)
    (h : pwTruthy pw = false ∨ isEncrypted shares.headI = false) :
    restoreBody shares pw
      = Except.bind (secretsCombine shares) fun hex =>
          if pwTruthy pw && isEncrypted (hexToString hex) then
            decrypt (hexToString hex) (pwString pw)
          else .ok (hexToString hex) := by
  cases pw with
  | none =>
      rw [restoreBody_nopw]
      have hfalse : pwTruthy none = false := rfl
      simp only [hfalse, Bool.false_and, Bool.false_eq_true, if_false]
  | some p =>
      have hcond : (pwTruthy (some p) && isEncrypted shares.headI) = false := by
        rcases h with h | h
        · rw [h, Bool.false_and]
        · rw [h, Bool.and_false]
      rw [restoreBody_eq, hcond]
      simp only [Bool.false_eq_true, if_false, except_bind_ok]
      rfl

/-- Claim C9, witness: a password is supplied and the second share carries
the marker, but the first does not, so the list reaches combination
unchanged. -/
theorem claim9_witness :
    restoreBody ["801ab", "encrypted:zz"] (some "p")
      = Except.bind (secretsCombine ["801ab", "encrypted:zz"]) fun hex =>
          if pwTruthy (some "p") && isEncrypted (hexToString hex) then
            decrypt (hexToString hex) (pwString (some "p"))
          else .ok (hexToString hex) :=
  claim9_gate ["801ab", "encrypted:zz"] (some "p") (Or.inr (by decide))

/-- Claim C10 (confirmed): for a string that does not itself carry the
marker, prepending the single marker never changes what `decrypt`
returns. -/
theorem claim10_marker (s p : String)
    (h : jsStartsWith s encMarker = false) :
    decrypt (encMarker ++ s) p = decrypt s p := by
  rw [decrypt_marked, decrypt_eval_unmarked h]

/-- Claim C10, witness: at a concrete unmarked string. -/
theorem claim10_witness :
    decrypt (encMarker ++ "abc") "p" = decrypt "abc" "p" :=
  claim10_marker "abc" "p" (by decide)


end EthShamir
